import Mathlib

/-!
Shallow embedding of the log index and view engine of the lnav fork
(src/logfile_sub_source.cc and src/textview_curses.cc), together with
proofs about its indexing, filtering and rendering behaviour.

Machine integers are modelled as `Nat`; `timeval` values are collapsed
into a single totally ordered `Nat` timestamp; fallible lookups return
`Option`.
-/

namespace Lnav

/-- Log message severity, `log_level_t` from the source. -/
inductive LogLevel where
  | unknown | trace | debug | info | stats | notice
  | warning | error | critical | fatal
  deriving DecidableEq, Repr, Inhabited

/-- One parsed log line as the core sees it: its timestamp (a `timeval`
collapsed into one `Nat`), whether it is a continuation of a multi-line
message, its severity, and whether its timestamp is skewed. -/
structure LogLine where
  ts : Nat
  continued : Bool
  level : LogLevel
  timeSkewed : Bool
  deriving DecidableEq, Repr, Inhabited

/-! ### text_filter over logfile_filter_state (src/textview_curses.cc) -/

/-- The per-file, per-filter bookkeeping of `logfile_filter_state`,
projected onto a single filter index `p`: the per-line bitmask
(`tfs_mask`, as a function from line number to bit pattern), the
per-filter counters and the current/last message accumulators. -/
structure FilterState where
  mask : Nat → Nat
  filterCount : Nat
  filterHits : Nat
  messageMatched : Bool
  linesForMessage : Nat
  lastMessageMatched : Bool
  lastLinesForMessage : Nat

/-- A line as seen by `text_filter::add_line`: whether it is continued
and whether `this->matches(...)` holds on it. -/
structure MsgLine where
  continued : Bool
  matched : Bool
  deriving DecidableEq, Repr, Inhabited

/-- The loop of `text_filter::end_of_message`: for `n` iterations, OR
the message-match bit for filter `p` into `mask[filterCount]`, advance
`filterCount`, and bump `filterHits` when the message matched. -/
def eomRun (p : Nat) (matched : Bool) :
    Nat → ((Nat → Nat) × Nat × Nat) → ((Nat → Nat) × Nat × Nat)
  | 0, st => st
  | n + 1, (mask, fc, hits) =>
      eomRun p matched n
        (Function.update mask fc (mask fc ||| (if matched then 1 <<< p else 0)),
         fc + 1,
         if matched then hits + 1 else hits)

/-- `text_filter::end_of_message`: flush the accumulated message into
the mask and counters, snapshot the last-message fields, and reset the
accumulator. -/
def endOfMessage (p : Nat) (s : FilterState) : FilterState :=
  let st := eomRun p s.messageMatched s.linesForMessage
      (s.mask, s.filterCount, s.filterHits)
  { mask := st.1
    filterCount := st.2.1
    filterHits := st.2.2
    messageMatched := false
    linesForMessage := 0
    lastMessageMatched := s.messageMatched
    lastLinesForMessage := s.linesForMessage }

/-- The accumulation step at the end of `text_filter::add_line`: OR the
line's match result into the message accumulator and count the line. -/
def accumLine (s : FilterState) (l : MsgLine) : FilterState :=
  { s with
    messageMatched := s.messageMatched || l.matched
    linesForMessage := s.linesForMessage + 1 }

/-- `text_filter::add_line`: evaluate the match, flush the previous
message first when this line is not a continuation, then accumulate. -/
def addLine (p : Nat) (s : FilterState) (l : MsgLine) : FilterState :=
  accumLine (if l.continued then s else endOfMessage p s) l

/-- Feed one whole message (a head line plus its continuations) through
`add_line` and finalize it with `end_of_message`. -/
def runMessage (p : Nat) (s : FilterState) (head : MsgLine)
    (conts : List MsgLine) : FilterState :=
  endOfMessage p (List.foldl (addLine p) s (head :: conts))

/-! ### log_location_history (src/logfile_sub_source.cc) -/

/-- `log_location_history`: the bounded back/forward list of visited
content lines (`llh_history`) and the cursor offset from its tail
(`lh_history_position`). -/
structure LocationHistory where
  history : List Nat
  position : Nat
  deriving DecidableEq, Repr

/-- `log_location_history::loc_history_append`: ignore rows past the end
of the source; otherwise resolve the row to a content line, truncate the
entries after the cursor, reset the cursor and push the new entry. -/
def locHistoryAppend (lineCount : Nat) (resolve : Nat → Nat) (top : Nat)
    (lh : LocationHistory) : LocationHistory :=
  if lineCount ≤ top then lh
  else
    { history := lh.history.take (lh.history.length - lh.position) ++ [resolve top]
      position := 0 }

/-! ### Timestamp styling in text_attrs_for_line -/

/-- The roles `text_attrs_for_line` can attach to the timestamp range of
a row. -/
inductive TsRole where
  | adjustedTime | altRow | skewedTime
  deriving DecidableEq, Repr

/-- The timestamp-range styling decisions of
`logfile_sub_source::text_attrs_for_line` (the chain of branches at the
end of the function): an adjusted-time file styles the timestamp with
the adjusted role; otherwise a head line in an even five-minute bucket
gets the alternate-row role; a time-skewed line additionally gets the
skewed role.  Each branch fires only when a `L_TIMESTAMP` range was
found among the line's attributes. -/
def timestampRoles (adjusted : Bool) (l : LogLine) (hasTsRange : Bool) :
    List TsRole :=
  (if adjusted then
     (if hasTsRange then [TsRole.adjustedTime] else [])
   else if ((l.ts / (5 * 60)) % 2 = 0) && !l.continued then
     (if hasTsRange then [TsRole.altRow] else [])
   else [])
  ++ (if l.timeSkewed then
        (if hasTsRange then [TsRole.skewedTime] else [])
      else [])

/-! ### logfile_sub_source state -/

/-- Modelled from the spec: `MAX_LINES_PER_FILE`, the compile-time
constant used to pack `(slot, line_number)` into one content line
(the constant itself lives in logfile_sub_source.hh, outside the
excerpt; the spec says 2^24 suffices). -/
def MAX_LINES_PER_FILE : Nat := 2 ^ 24

/-- `logfile_data`: one attached file slot — its stable index
(`ld_file_index`), how many of its lines are already merged into the
global index (`ld_lines_indexed`), the file contents (`none` when the
file is gone), and the per-line filter bitmask of its
`logfile_filter_state`. -/
structure LogfileData where
  fileIndex : Nat
  linesIndexed : Nat
  file : Option (List LogLine)
  mask : Nat → Nat

/-- The sub-source state the claims are about: the attached files
(`lss_files`), the global index of content lines (`lss_index`), the
filtered projection (`lss_filtered_index`) and the external
force-rebuild flag (`lss_force_rebuild`). -/
structure LSS where
  files : List LogfileData
  index : List Nat
  filteredIndex : List Nat
  forceRebuild : Bool

/-- The result of one `logfile::rebuild_index` re-observation. -/
inductive FileRR where
  | noNewLines | newLines | newOrder | invalid
  deriving DecidableEq, Repr

/-- The result of `logfile_sub_source::rebuild_index`. -/
inductive RebuildResult where
  | noChange | appendedLines | fullRebuild
  deriving DecidableEq, Repr

/-- One file's re-observation for a tick: the result code reported by
`logfile::rebuild_index` together with the file's contents after the
re-observation. -/
structure FileObs where
  rr : FileRR
  newContent : List LogLine

/-- Modelled from the spec: `logfile_sub_source::find_data` (declared in
logfile_sub_source.hh, outside the excerpt) decodes a content line into
the owning slot record and the line number within that file. -/
def findData (files : List LogfileData) (cl : Nat) :
    Option (LogfileData × Nat) :=
  (files[cl / MAX_LINES_PER_FILE]?).map (fun ld => (ld, cl % MAX_LINES_PER_FILE))

/-- Modelled from the spec: `logfile_sub_source::find_line` (declared in
logfile_sub_source.hh, outside the excerpt) resolves a content line to
the logline it denotes, or nothing when the file is gone. -/
def findLine (files : List LogfileData) (cl : Nat) : Option LogLine :=
  match findData files cl with
  | none => none
  | some (ld, ln) =>
    match ld.file with
    | none => none
    | some f => f[ln]?

/-- Modelled from the spec: `logfile_filter_state::excluded` (declared
outside the excerpt): a line is excluded iff its mask meets the OUT
mask, or IN filters are enabled and its mask misses the IN mask. -/
def excluded (inMask outMask : Nat) (mask : Nat → Nat) (ln : Nat) : Bool :=
  (mask ln &&& outMask ≠ 0) || (inMask ≠ 0 && mask ln &&& inMask = 0)

/-- One iteration of the polling loop at the top of
`logfile_sub_source::rebuild_index` for the slot at position `j`:
a gone file with indexed lines forces a full rebuild; otherwise (unless
paused) the file is re-observed, a no-change report with an unprocessed
backlog is upgraded to `RR_NEW_LINES`, new lines older than the current
tail of the index escalate to a full rebuild, and `RR_NEW_ORDER` or
`RR_INVALID` always escalate. -/
def pollStep (paused : Bool) (index0 : List Nat) (obs : Nat → FileObs)
    (acc : List LogfileData × RebuildResult × Bool) (j : Nat) :
    List LogfileData × RebuildResult × Bool :=
  let (files, retval, force) := acc
  match files[j]? with
  | none => acc
  | some ld =>
    match ld.file with
    | none =>
      if 0 < ld.linesIndexed then (files, RebuildResult.fullRebuild, true)
      else acc
    | some _ =>
      if paused then acc
      else
        let f_new := (obs j).newContent
        let files1 := files.set j { ld with file := some f_new }
        let rb := if (obs j).rr = FileRR.noNewLines ∧ ld.linesIndexed < f_new.length
                  then FileRR.newLines else (obs j).rr
        match rb with
        | FileRR.noNewLines => (files1, retval, force)
        | FileRR.newLines =>
          let retval1 := if retval = RebuildResult.noChange
                         then RebuildResult.appendedLines else retval
          match index0.getLast? with
          | none => (files1, retval1, force)
          | some cl =>
            let newFileLine := f_new.getD ld.linesIndexed default
            match findLine files1 cl with
            | none => (files1, RebuildResult.fullRebuild, true)
            | some lastLine =>
              if newFileLine.ts < lastLine.ts
              then (files1, RebuildResult.fullRebuild, true)
              else (files1, retval1, force)
        | FileRR.newOrder => (files1, RebuildResult.fullRebuild, true)
        | FileRR.invalid => (files1, RebuildResult.fullRebuild, true)

/-- The whole polling loop of `rebuild_index`, folded over every slot. -/
def pollPhase (paused : Bool) (obs : Nat → FileObs) (s : LSS) :
    List LogfileData × RebuildResult × Bool :=
  (List.range s.files.length).foldl (pollStep paused s.index obs)
    (s.files,
     if s.forceRebuild then RebuildResult.fullRebuild else RebuildResult.noChange,
     s.forceRebuild)

/-- The head of a slot's unindexed suffix: the line the k-way merge
would consume next from the file at position `j`. -/
def headAt (files : List LogfileData) (j : Nat) : Option LogLine :=
  match files[j]? with
  | none => none
  | some ld =>
    match ld.file with
    | none => none
    | some f => f[ld.linesIndexed]?

/-- Scan of the candidate slots for the minimal unindexed head,
keeping the first slot on timestamp ties. -/
def pickMinAux (files : List LogfileData) :
    List Nat → Option (Nat × Nat) → Option (Nat × Nat)
  | [], best => best
  | j :: rest, best =>
    match headAt files j with
    | none => pickMinAux files rest best
    | some l =>
      match best with
      | none => pickMinAux files rest (some (j, l.ts))
      | some b =>
        if l.ts < b.2 then pickMinAux files rest (some (j, l.ts))
        else pickMinAux files rest best

/-- `kmerge_tree_c::get_top`: the position and timestamp of the minimal
head among all files that still have unindexed lines. -/
def pickMin (files : List LogfileData) : Option (Nat × Nat) :=
  pickMinAux files (List.range files.length) none

/-- How many unindexed lines remain across all files; the fuel of the
merge loop. -/
def totalRemaining (files : List LogfileData) : Nat :=
  (files.map fun ld =>
    match ld.file with
    | some f => f.length - ld.linesIndexed
    | none => 0).sum

/-- The k-way merge loop of `rebuild_index`: repeatedly take the file
with the minimal unindexed head, append its content line
(`file_index * MAX_LINES_PER_FILE + line_index`) and advance that
file's `ld_lines_indexed`; stop as soon as the consumed line was the
last line of its file.  Returns the updated slots and the appended
content lines. -/
def kmergeRun : Nat → List LogfileData → (List LogfileData × List Nat)
  | 0, files => (files, [])
  | fuel + 1, files =>
    match pickMin files with
    | none => (files, [])
    | some jt =>
      match files[jt.1]? with
      | none => (files, [])
      | some ld =>
        match ld.file with
        | none => (files, [])
        | some f =>
          let lineIndex := ld.linesIndexed
          let cl := ld.fileIndex * MAX_LINES_PER_FILE + lineIndex
          let files1 := files.set jt.1 { ld with linesIndexed := lineIndex + 1 }
          if lineIndex + 1 = f.length then (files1, [cl])
          else
            let rest := kmergeRun fuel files1
            (rest.1, cl :: rest.2)

/-- Whether the filtered-index extension loop of `rebuild_index` (and of
`text_filters_changed`) accepts the entry at position `i` of the global
index: resolve it to its file and line number, consult the filter mask,
and apply the extra filters. -/
def acceptsPos (extra : LogLine → Bool) (inMask outMask : Nat)
    (files : List LogfileData) (index : List Nat) (i : Nat) : Bool :=
  match index[i]? with
  | none => false
  | some cl =>
    match findData files cl with
    | none => false
    | some (ld, ln) =>
      match ld.file with
      | none => false
      | some f =>
        match f[ln]? with
        | none => false
        | some line => !excluded inMask outMask ld.mask ln && extra line

/-- The filtered-index extension loop: the positions in
`[startSize, index.length)` of the global index that pass the filters,
in order. -/
def filterPass (extra : LogLine → Bool) (inMask outMask : Nat)
    (files : List LogfileData) (index : List Nat) (startSize : Nat) :
    List Nat :=
  (List.range' startSize (index.length - startSize)).filter
    (acceptsPos extra inMask outMask files index)

/-- `logfile_sub_source::rebuild_index` for one tick.  `paused` is the
view's pause state, `reserveForce` is whether `big_array::reserve`
allocated new segments, `extra` stands for `check_extra_filters`, the
masks are the enabled filter masks, and `obs` gives each slot's
re-observation.  Because the source pins `never_force = true`, the
force path never clears the index, the merge path is always the
incremental k-way merge, and a full-rebuild classification is remapped
to `rr_appended_lines` just before returning. -/
def rebuildIndex (paused reserveForce : Bool) (extra : LogLine → Bool)
    (inMask outMask : Nat) (obs : Nat → FileObs) (s : LSS) :
    LSS × RebuildResult :=
  let polled := pollPhase paused obs s
  let files1 := polled.1
  let retval1 := polled.2.1
  let force := polled.2.2 || reserveForce
  if retval1 = RebuildResult.noChange ∧ force = false then
    ({ s with files := files1, forceRebuild := false }, retval1)
  else
    let startSize := s.index.length
    let merged := kmergeRun (totalRemaining files1) files1
    let index2 := s.index ++ merged.2
    let filtered2 := s.filteredIndex ++
      filterPass extra inMask outMask merged.1 index2 startSize
    let retval2 := if retval1 = RebuildResult.fullRebuild
                   then RebuildResult.appendedLines else retval1
    ({ files := merged.1, index := index2, filteredIndex := filtered2,
       forceRebuild := false }, retval2)

/-- `logfile_sub_source::text_filters_changed`: every file is
re-observed through its filter chain (yielding fresh per-line masks,
supplied here as `newMask`), and the filtered index is rebuilt from
scratch over the whole global index. -/
def textFiltersChanged (extra : LogLine → Bool) (inMask outMask : Nat)
    (newMask : Nat → Nat → Nat) (s : LSS) : LSS :=
  let files1 := (List.range s.files.length).foldl
    (fun files j =>
      match files[j]? with
      | none => files
      | some ld => files.set j { ld with mask := newMask j }) s.files
  { s with
    files := files1
    filteredIndex := filterPass extra inMask outMask files1 s.index 0 }

/-- The timestamp a position of the global index denotes, given the
slot contents (zero when unresolvable). -/
def tsDecode (files : List LogfileData) (cl : Nat) : Nat :=
  ((findLine files cl).map (·.ts)).getD 0

/-- The timestamps stored in the global index, in index order. -/
def indexTsList (s : LSS) : List Nat := s.index.map (tsDecode s.files)

/-- The logline a visible row denotes: `FilteredIndex[row]` into
`GlobalIndex` into the owning file. -/
def rowLine (s : LSS) (vl : Nat) : Option LogLine :=
  s.filteredIndex[vl]?.bind fun ii =>
    s.index[ii]?.bind fun cl => findLine s.files cl

/-- The body of the row loop of `text_update_marks`, restricted to the
error/warning bookmark sets: resolve the row, skip continuation lines,
and insert the row into the warning set on `LEVEL_WARNING` and into the
error set on `LEVEL_FATAL`, `LEVEL_ERROR` or `LEVEL_CRITICAL`. -/
def tumStep (s : LSS) (acc : List Nat × List Nat) (vl : Nat) :
    List Nat × List Nat :=
  match rowLine s vl with
  | none => acc
  | some l =>
    if l.continued then acc
    else
      match l.level with
      | LogLevel.warning => (acc.1 ++ [vl], acc.2)
      | LogLevel.fatal => (acc.1, acc.2 ++ [vl])
      | LogLevel.error => (acc.1, acc.2 ++ [vl])
      | LogLevel.critical => (acc.1, acc.2 ++ [vl])
      | _ => acc

/-- `text_update_marks` restricted to the error/warning bookmark sets:
walk every visible row in order and collect the warning rows and the
error rows. -/
def textUpdateMarks (s : LSS) : List Nat × List Nat :=
  (List.range s.filteredIndex.length).foldl (tumStep s) ([], [])

/-- Whether a row lands in the warning bookmark set. -/
def warnB (s : LSS) (vl : Nat) : Bool :=
  match rowLine s vl with
  | none => false
  | some l => !l.continued && l.level = LogLevel.warning

/-- Whether a row lands in the error bookmark set. -/
def errB (s : LSS) (vl : Nat) : Bool :=
  match rowLine s vl with
  | none => false
  | some l =>
    !l.continued &&
      (l.level = LogLevel.error || l.level = LogLevel.critical ||
       l.level = LogLevel.fatal)

/-- The invariant claimed of the filtered index: strictly increasing
positions, all within the global index. -/
def filteredOk (s : LSS) : Prop :=
  List.Pairwise (· < ·) s.filteredIndex ∧
  ∀ i ∈ s.filteredIndex, i < s.index.length

/-! ### Concrete scenario states -/

/-- The all-zero filter mask of a freshly attached file. -/
def mask0 : Nat → Nat := fun _ => 0

/-- A plain head line at timestamp `t`. -/
def mkLine (t : Nat) : LogLine := ⟨t, false, LogLevel.info, false⟩

/-- `check_extra_filters` when no extra filter (minimum level,
marked-only, time window) is set: every line passes. -/
def extraTrue : LogLine → Bool := fun _ => true

/-- File A of the two-file merge scenario: lines at t = 1, 3, 5. -/
def fileA : List LogLine := [mkLine 1, mkLine 3, mkLine 5]

/-- File B of the two-file merge scenario: lines at t = 2, 4, 6. -/
def fileB : List LogLine := [mkLine 2, mkLine 4, mkLine 6]

/-- Both files attached, nothing indexed yet. -/
def twoFileAttach : LSS :=
  ⟨[⟨0, 0, some fileA, mask0⟩, ⟨1, 0, some fileB, mask0⟩], [], [], false⟩

/-- First tick: both files report their lines as new. -/
def obsAttachAB : Nat → FileObs := fun j =>
  if j = 0 then ⟨FileRR.newLines, fileA⟩ else ⟨FileRR.newLines, fileB⟩

/-- The first `rebuild_index` call of the two-file merge scenario. -/
def mergeCall1 : LSS × RebuildResult :=
  rebuildIndex false false extraTrue 0 0 obsAttachAB twoFileAttach

/-- Second tick: no file has new content. -/
def obsNothingAB : Nat → FileObs := fun j =>
  if j = 0 then ⟨FileRR.noNewLines, fileA⟩ else ⟨FileRR.noNewLines, fileB⟩

/-- The second `rebuild_index` call of the two-file merge scenario. -/
def mergeCall2 : LSS × RebuildResult :=
  rebuildIndex false false extraTrue 0 0 obsNothingAB mergeCall1.1

/-- Single file A attached, nothing indexed yet. -/
def oneFileAttach : LSS := ⟨[⟨0, 0, some fileA, mask0⟩], [], [], false⟩

/-- First tick of the re-ordered append scenario: file A is indexed. -/
def oneFileCall1 : LSS × RebuildResult :=
  rebuildIndex false false extraTrue 0 0 (fun _ => ⟨FileRR.newLines, fileA⟩)
    oneFileAttach

/-- File A after a late line at t = 2 is appended behind t = 5. -/
def fileALate : List LogLine := fileA ++ [mkLine 2]

/-- The re-observation reporting that late line as new. -/
def obsLate : Nat → FileObs := fun _ => ⟨FileRR.newLines, fileALate⟩

/-- The `rebuild_index` call that sees the re-ordered append. -/
def reorderCall : LSS × RebuildResult :=
  rebuildIndex false false extraTrue 0 0 obsLate oneFileCall1.1

/-- Slot consistency (the spec's "slots form a contiguous prefix"): the
slot record at position `j` carries file index `j`. -/
def slotConsistent (files : List LogfileData) : Prop :=
  ∀ (j : Nat) (ld : LogfileData), files[j]? = some ld → ld.fileIndex = j

/-- Every attached file fits under `MAX_LINES_PER_FILE`. -/
def filesBounded (files : List LogfileData) : Prop :=
  ∀ ld ∈ files, ∀ f, ld.file = some f → f.length ≤ MAX_LINES_PER_FILE

/-- Every attached file is internally in non-decreasing timestamp
order. -/
def filesChainTs (files : List LogfileData) : Prop :=
  ∀ ld ∈ files, ∀ f, ld.file = some f → List.Chain' (· ≤ ·) (f.map LogLine.ts)

/-- `lines_indexed` never exceeds the file size (the spec's
"`lines_indexed ≤ file.size()` at all times"). -/
def linesWithin (files : List LogfileData) : Prop :=
  ∀ ld ∈ files, ∀ f, ld.file = some f → ld.linesIndexed ≤ f.length

/-- A freshly initialised filter state: clean mask and counters. -/
def cleanFS : FilterState := ⟨mask0, 0, 0, false, 0, false, 0⟩

/-- Head line of the witness message: not continued, matches. -/
def mhead : MsgLine := ⟨false, true⟩

/-- Continuations of the witness message: one non-matching line. -/
def mconts : List MsgLine := [⟨true, false⟩]

/-- A head line at LEVEL_WARNING. -/
def warnLine : LogLine := ⟨1, false, LogLevel.warning, false⟩

/-- A state holding just that warning row. -/
def warnState : LSS := ⟨[⟨0, 1, some [warnLine], mask0⟩], [0], [0], false⟩

/-! ### C3: the two-file merge scenario -/

/-- C3 counterexample: after a single `rebuild_index` over A at t =
1,3,5 and B at t = 2,4,6, GlobalIndex does not hold all six lines and
FilteredIndex is not `[0..5]` — the merge loop stops upon consuming
A's last line, leaving B's t = 6 line for the next pass. -/
theorem c3_counterexample :
    ¬(mergeCall1.1.index =
        [0, MAX_LINES_PER_FILE, 1, MAX_LINES_PER_FILE + 1, 2,
         MAX_LINES_PER_FILE + 2] ∧
      mergeCall1.1.filteredIndex = [0, 1, 2, 3, 4, 5]) := by decide

/-- C3 amended: one `rebuild_index` call over A at t = 1,3,5 and B at
t = 2,4,6 yields GlobalIndex `[A0, B0, A1, B1, A2]` and FilteredIndex
`[0..4]`; B's remaining line at t = 6 arrives on the following call,
after which GlobalIndex is `[A0, B0, A1, B1, A2, B2]` and FilteredIndex
is `[0..5]`. -/
theorem c3_two_file_merge :
    mergeCall1.1.index =
      [0, MAX_LINES_PER_FILE, 1, MAX_LINES_PER_FILE + 1, 2] ∧
    mergeCall1.1.filteredIndex = [0, 1, 2, 3, 4] ∧
    mergeCall2.1.index =
      [0, MAX_LINES_PER_FILE, 1, MAX_LINES_PER_FILE + 1, 2,
       MAX_LINES_PER_FILE + 2] ∧
    mergeCall2.1.filteredIndex = [0, 1, 2, 3, 4, 5] := by decide

/-! ### C9: loc_history_append on an out-of-range row -/

/-- C9: `loc_history_append` with a row at or past `text_line_count`
leaves the location history unchanged: nothing is appended, nothing is
truncated and the cursor keeps its position. -/
theorem c9_out_of_range_append_noop (lineCount : Nat) (resolve : Nat → Nat)
    (top : Nat) (lh : LocationHistory) (h : lineCount ≤ top) :
    locHistoryAppend lineCount resolve top lh = lh := by
  simp [locHistoryAppend, h]

/-- C9 witness: a concrete out-of-range append is a no-op. -/
theorem c9_witness :
    (3 : Nat) ≤ 7 ∧
      locHistoryAppend 3 (fun t => t) 7 ⟨[1, 2], 1⟩ = ⟨[1, 2], 1⟩ :=
  ⟨by decide,
   c9_out_of_range_append_noop 3 (fun t => t) 7 ⟨[1, 2], 1⟩ (by decide)⟩

/-! ### C8: the alternate-row timestamp role -/

/-- C8 counterexample: a continuation line in an even five-minute
bucket does not get the alternate-row role — `text_attrs_for_line`
requires `!is_continued()` as well. -/
theorem c8_counterexample :
    ((0 : Nat) / 300) % 2 = 0 ∧
    TsRole.altRow ∉ timestampRoles false ⟨0, true, LogLevel.info, false⟩ true := by
  decide

/-- C8 amended: a row whose epoch seconds satisfy
`(epoch_sec / 300) % 2 = 0` gets the alternate-row role on its
timestamp range, provided the file's clock is not adjusted, the line is
not a continuation, and a timestamp range was found among the line's
attributes. -/
theorem c8_alt_row_role (adjusted : Bool) (l : LogLine)
    (hadj : adjusted = false) (hcont : l.continued = false)
    (hts : (l.ts / 300) % 2 = 0) :
    TsRole.altRow ∈ timestampRoles adjusted l true := by
  subst hadj
  simp [timestampRoles, hcont, hts]

/-- C8 witness: a head line at t = 0 on an unadjusted file gets the
alternate-row role. -/
theorem c8_witness :
    false = false ∧ (mkLine 0).continued = false ∧
    ((mkLine 0).ts / 300) % 2 = 0 ∧
    TsRole.altRow ∈ timestampRoles false (mkLine 0) true :=
  ⟨rfl, rfl, by decide, c8_alt_row_role false (mkLine 0) rfl rfl (by decide)⟩

/-! ### C5: an APPENDED result never disturbs the existing index -/

/-- C5: the global index is only ever extended: whatever the call
classifies, the previous contents of `lss_index` stay in place and any
new content lines are appended after them (the force/clear path is
compiled out by `never_force`); in particular this holds whenever
`rebuild_index` returns `APPENDED`. -/
theorem c5_appended_prefix_preserved (paused rf : Bool)
    (extra : LogLine → Bool) (im om : Nat) (obs : Nat → FileObs) (s : LSS)
    (h : (rebuildIndex paused rf extra im om obs s).2 =
      RebuildResult.appendedLines) :
    ∃ tail, (rebuildIndex paused rf extra im om obs s).1.index =
      s.index ++ tail := by
  clear h
  unfold rebuildIndex
  dsimp only
  split
  · exact ⟨[], by simp⟩
  · exact ⟨_, rfl⟩

/-- C5 witness: the two-file merge call returns `APPENDED` and extends
the (empty) previous index. -/
theorem c5_witness :
    (rebuildIndex false false extraTrue 0 0 obsAttachAB twoFileAttach).2 =
      RebuildResult.appendedLines ∧
    ∃ tail,
      (rebuildIndex false false extraTrue 0 0 obsAttachAB twoFileAttach).1.index =
        twoFileAttach.index ++ tail :=
  ⟨by decide,
   c5_appended_prefix_preserved false false extraTrue 0 0 obsAttachAB
     twoFileAttach (by decide)⟩

/-! ### C1 and C2 counterexamples: the re-ordered append -/

/-- C1 counterexample: file A at t = 1,3,5 is indexed; a re-observation
reports `NEW_LINES` whose first new line (t = 2) predates the index
tail (t = 5), yet the call does not return `FULL_REBUILD` — the
`never_force` remap downgrades the classification to `APPENDED`. -/
theorem c1_counterexample :
    (obsLate 0).rr = FileRR.newLines ∧
    ((obsLate 0).newContent[3]?).map LogLine.ts = some 2 ∧
    indexTsList oneFileCall1.1 = [1, 3, 5] ∧
    reorderCall.2 = RebuildResult.appendedLines ∧
    reorderCall.2 ≠ RebuildResult.fullRebuild := by decide

/-- C2 counterexample: in the reachable state after the re-ordered
append, the global index holds timestamps `[1, 3, 5, 2]` — the stored
ContentLines are not in non-decreasing timestamp order. -/
theorem c2_counterexample :
    indexTsList reorderCall.1 = [1, 3, 5, 2] ∧
    ¬ List.Sorted (· ≤ ·) (indexTsList reorderCall.1) := by decide

/-! ### C7: the end-of-message mask invariant -/

/-- The `end_of_message` loop sets bit `p` (when the message matched)
exactly on the lines `[filterCount, filterCount + n)` and leaves every
other mask entry alone. -/
theorem eomRun_mask (p : Nat) (matched : Bool) :
    ∀ (n : Nat) (mask : Nat → Nat) (fc hits i : Nat),
    (eomRun p matched n (mask, fc, hits)).1 i =
      if fc ≤ i ∧ i < fc + n
      then mask i ||| (if matched then 1 <<< p else 0)
      else mask i := by
  intro n
  induction n with
  | zero =>
    intro mask fc hits i
    rw [eomRun, if_neg (by omega)]
  | succ n ih =>
    intro mask fc hits i
    rw [eomRun, ih]
    rcases eq_or_ne i fc with hi | hi
    · subst hi
      simp only [Function.update_same]
      split_ifs <;> first | rfl | omega
    · rw [Function.update_noteq hi]
      split_ifs <;> first | rfl | omega

/-- `end_of_message` on the whole filter state: the mask after the
flush, in closed form. -/
theorem endOfMessage_mask (p : Nat) (s : FilterState) (i : Nat) :
    (endOfMessage p s).mask i =
      if s.filterCount ≤ i ∧ i < s.filterCount + s.linesForMessage
      then s.mask i ||| (if s.messageMatched then 1 <<< p else 0)
      else s.mask i :=
  eomRun_mask p s.messageMatched s.linesForMessage s.mask s.filterCount
    s.filterHits i

/-- Folding `add_line` over continuation lines only accumulates: the
match bits OR together and the line count grows, while mask and
counters stay put. -/
theorem foldl_addLine_cont (p : Nat) :
    ∀ (conts : List MsgLine) (s : FilterState),
    (∀ l ∈ conts, l.continued = true) →
    List.foldl (addLine p) s conts =
      { s with
        messageMatched := s.messageMatched || conts.any (·.matched)
        linesForMessage := s.linesForMessage + conts.length } := by
  intro conts
  induction conts with
  | nil =>
    intro s _
    simp
  | cons x xs ih =>
    intro s h
    have hx : x.continued = true := h x (by simp)
    rw [List.foldl_cons, addLine, if_pos hx,
      ih _ (fun l hl => h l (by simp [hl]))]
    cases s
    simp [accumLine, Bool.or_assoc]
    omega

/-- C7: processing one message (a head line and its continuations) via
`add_line` and finalizing with `end_of_message` sets bit `p` on every
line of the message iff the filter matched at least one of its lines
(given that those mask bits were clear beforehand, as they are for
lines not yet finalized); and `add_line` on a non-continuation line
flushes the previous message through `end_of_message` before
accumulating. -/
theorem c7_message_mask (p : Nat) (s : FilterState) (head : MsgLine)
    (conts : List MsgLine) (hh : head.continued = false)
    (hc : ∀ l ∈ conts, l.continued = true) (h0 : s.linesForMessage = 0)
    (hclear : ∀ i, s.filterCount ≤ i → Nat.testBit (s.mask i) p = false) :
    (∀ (t : FilterState) (l : MsgLine), l.continued = false →
        addLine p t l = accumLine (endOfMessage p t) l) ∧
    ∀ i, s.filterCount ≤ i → i < s.filterCount + (1 + conts.length) →
      Nat.testBit ((runMessage p s head conts).mask i) p =
        (head.matched || conts.any (·.matched)) := by
  constructor
  · intro t l hl
    rw [addLine, if_neg (by simp [hl])]
  · intro i hlow hhigh
    have h1 : addLine p s head =
        { mask := s.mask, filterCount := s.filterCount,
          filterHits := s.filterHits,
          messageMatched := head.matched,
          linesForMessage := 1,
          lastMessageMatched := s.messageMatched,
          lastLinesForMessage := 0 } := by
      simp [addLine, hh, endOfMessage, h0, accumLine, eomRun]
    have hrun : runMessage p s head conts =
        endOfMessage p
          { mask := s.mask, filterCount := s.filterCount,
            filterHits := s.filterHits,
            messageMatched := head.matched || conts.any (·.matched),
            linesForMessage := 1 + conts.length,
            lastMessageMatched := s.messageMatched,
            lastLinesForMessage := 0 } := by
      rw [runMessage, List.foldl_cons, h1, foldl_addLine_cont p conts _ hc]
    rw [hrun, endOfMessage_mask, if_pos ⟨hlow, hhigh⟩, Nat.testBit_or,
      hclear i hlow]
    cases hmm : head.matched || conts.any (·.matched)
    · simp
    · simp [Nat.shiftLeft_eq]

/-- C7 witness: a matching head with a non-matching continuation marks
both lines of the message. -/
theorem c7_witness :
    (0 : Nat) ≤ 1 ∧ 1 < 0 + (1 + mconts.length) ∧
    Nat.testBit ((runMessage 0 cleanFS mhead mconts).mask 1) 0 = true := by
  refine ⟨by decide, by decide, ?_⟩
  rw [(c7_message_mask 0 cleanFS mhead mconts rfl (by decide) rfl
    (fun i _ => by simp [cleanFS, mask0])).2 1 (by decide) (by decide)]
  decide

/-! ### C6: the filtered-index invariant -/

/-- New filtered-index entries are strictly increasing. -/
theorem filterPass_pairwise (extra : LogLine → Bool) (im om : Nat)
    (files : List LogfileData) (index : List Nat) (start : Nat) :
    List.Pairwise (· < ·) (filterPass extra im om files index start) :=
  List.Pairwise.filter _ (List.pairwise_lt_range' start _)

/-- New filtered-index entries lie between the extension start and the
length of the global index. -/
theorem filterPass_mem (extra : LogLine → Bool) (im om : Nat)
    (files : List LogfileData) (index : List Nat) (start x : Nat)
    (hx : x ∈ filterPass extra im om files index start) :
    start ≤ x ∧ x < index.length := by
  have h1 := List.mem_of_mem_filter hx
  have h2 := List.mem_range'_1.mp h1
  omega

/-- C6: after any `rebuild_index` call (given the invariant held
before) and after any `text_filters_changed` call (unconditionally),
the filtered index is strictly increasing and every entry is a valid
position of the global index. -/
theorem c6_filtered_index_invariant :
    (∀ (paused rf : Bool) (extra : LogLine → Bool) (im om : Nat)
        (obs : Nat → FileObs) (s : LSS), filteredOk s →
        filteredOk (rebuildIndex paused rf extra im om obs s).1) ∧
    (∀ (extra : LogLine → Bool) (im om : Nat) (newMask : Nat → Nat → Nat)
        (s : LSS), filteredOk (textFiltersChanged extra im om newMask s)) := by
  constructor
  · intro paused rf extra im om obs s hs
    unfold rebuildIndex
    dsimp only
    split
    · exact hs
    · constructor
      · rw [List.pairwise_append]
        refine ⟨hs.1, filterPass_pairwise _ _ _ _ _ _, ?_⟩
        intro a ha b hb
        have hb2 := filterPass_mem _ _ _ _ _ _ _ hb
        have ha2 := hs.2 a ha
        omega
      · intro i hi
        rw [List.mem_append] at hi
        rcases hi with hi | hi
        · have := hs.2 i hi
          rw [List.length_append]
          omega
        · exact (filterPass_mem _ _ _ _ _ _ _ hi).2
  · intro extra im om newMask s
    unfold textFiltersChanged
    dsimp only
    constructor
    · exact filterPass_pairwise _ _ _ _ _ _
    · intro i hi
      exact (filterPass_mem _ _ _ _ _ _ _ hi).2

/-- C6 witness: the invariant holds before and after the two-file merge
call. -/
theorem c6_witness :
    filteredOk twoFileAttach ∧
    filteredOk (rebuildIndex false false extraTrue 0 0 obsAttachAB
      twoFileAttach).1 :=
  have h : filteredOk twoFileAttach := ⟨List.Pairwise.nil, by simp [twoFileAttach]⟩
  ⟨h, c6_filtered_index_invariant.1 false false extraTrue 0 0 obsAttachAB
    twoFileAttach h⟩

/-! ### C10: warning and error bookmarks -/

/-- One `text_update_marks` row step, in closed form: the row is pushed
onto the warning set iff `warnB` holds and onto the error set iff
`errB` holds. -/
theorem tumStep_eq (s : LSS) (acc : List Nat × List Nat) (vl : Nat) :
    tumStep s acc vl =
      (acc.1 ++ if warnB s vl then [vl] else [],
       acc.2 ++ if errB s vl then [vl] else []) := by
  unfold tumStep warnB errB
  cases h : rowLine s vl with
  | none => simp [h]
  | some l =>
    obtain ⟨ts, cont, lvl, skew⟩ := l
    cases cont <;> cases lvl <;> simp [h]

/-- The whole row loop of `text_update_marks`, in closed form: it
filters the visible rows by `warnB` and by `errB`. -/
theorem tum_foldl (s : LSS) :
    ∀ (L : List Nat) (acc : List Nat × List Nat),
      L.foldl (tumStep s) acc =
        (acc.1 ++ L.filter (warnB s), acc.2 ++ L.filter (errB s)) := by
  intro L
  induction L with
  | nil => intro acc; simp
  | cons x xs ih =>
    intro acc
    rw [List.foldl_cons, tumStep_eq, ih]
    by_cases hw : warnB s x <;> by_cases he : errB s x <;>
      simp [List.filter_cons, hw, he]

/-- C10: a continuation row is never inserted into the warning or error
bookmark sets; a head row is in the warning set iff its level is
WARNING, and in the error set iff its level is ERROR, CRITICAL or
FATAL. -/
theorem c10_error_warning_marks (s : LSS) (vl : Nat) (l : LogLine)
    (h : rowLine s vl = some l) :
    (l.continued = true →
      vl ∉ (textUpdateMarks s).1 ∧ vl ∉ (textUpdateMarks s).2) ∧
    (l.continued = false →
      ((vl ∈ (textUpdateMarks s).1 ↔ l.level = LogLevel.warning) ∧
       (vl ∈ (textUpdateMarks s).2 ↔
         (l.level = LogLevel.error ∨ l.level = LogLevel.critical ∨
          l.level = LogLevel.fatal)))) := by
  have hvl : vl < s.filteredIndex.length := by
    by_contra hz
    rw [rowLine, List.getElem?_eq_none (by omega)] at h
    simp at h
  have hset : textUpdateMarks s =
      ((List.range s.filteredIndex.length).filter (warnB s),
       (List.range s.filteredIndex.length).filter (errB s)) := by
    rw [textUpdateMarks, tum_foldl]
    simp
  have hw : warnB s vl = (!l.continued && decide (l.level = LogLevel.warning)) := by
    unfold warnB
    rw [h]
  have he : errB s vl =
      (!l.continued &&
        (decide (l.level = LogLevel.error) ||
         decide (l.level = LogLevel.critical) ||
         decide (l.level = LogLevel.fatal))) := by
    unfold errB
    rw [h]
  constructor
  · intro hcont
    rw [hset]
    constructor
    · intro hmem
      have h2 := (List.mem_filter.mp hmem).2
      rw [hw, hcont] at h2
      simp at h2
    · intro hmem
      have h2 := (List.mem_filter.mp hmem).2
      rw [he, hcont] at h2
      simp at h2
  · intro hcont
    rw [hset]
    constructor
    · constructor
      · intro hmem
        have h2 := (List.mem_filter.mp hmem).2
        rw [hw, hcont] at h2
        simpa using h2
      · intro hl
        refine List.mem_filter.mpr ⟨List.mem_range.mpr hvl, ?_⟩
        rw [hw, hcont, hl]
        simp
    · constructor
      · intro hmem
        have h2 := (List.mem_filter.mp hmem).2
        rw [he, hcont] at h2
        simp at h2
        tauto
      · intro hl
        refine List.mem_filter.mpr ⟨List.mem_range.mpr hvl, ?_⟩
        rw [he, hcont]
        rcases hl with h1 | h1 | h1 <;> simp [h1]

/-- C10 witness: a single warning head row lands in the warning
bookmark set. -/
theorem c10_witness :
    rowLine warnState 0 = some warnLine ∧
    0 ∈ (textUpdateMarks warnState).1 :=
  ⟨by decide,
   ((c10_error_warning_marks warnState 0 warnLine (by decide)).2 rfl).1.mpr rfl⟩

/-! ### Poll-phase lemmas -/

/-- `l[j]? = some x` forces `j` to be in range. -/
theorem lt_length_of_getElem?_some {α : Type} {l : List α} {j : Nat} {x : α}
    (h : l[j]? = some x) : j < l.length := by
  by_contra hz
  rw [List.getElem?_eq_none (by omega)] at h
  cases h

/-- Once the polling loop has classified a full rebuild, later steps
keep that classification. -/
theorem pollStep_full (paused : Bool) (index0 : List Nat)
    (obs : Nat → FileObs) (acc : List LogfileData × RebuildResult × Bool)
    (j : Nat) (h : acc.2.1 = RebuildResult.fullRebuild) :
    (pollStep paused index0 obs acc j).2.1 = RebuildResult.fullRebuild := by
  obtain ⟨files, retval, force⟩ := acc
  simp only at h
  subst h
  unfold pollStep
  dsimp only
  repeat' split
  all_goals first | rfl | simp_all

/-- The whole remaining loop keeps a full-rebuild classification. -/
theorem foldl_pollStep_full (paused : Bool) (index0 : List Nat)
    (obs : Nat → FileObs) :
    ∀ (L : List Nat) (acc : List LogfileData × RebuildResult × Bool),
      acc.2.1 = RebuildResult.fullRebuild →
      ((L.foldl (pollStep paused index0 obs) acc).2.1 =
        RebuildResult.fullRebuild) := by
  intro L
  induction L with
  | nil => intro acc h; exact h
  | cons x xs ih =>
    intro acc h
    rw [List.foldl_cons]
    exact ih _ (pollStep_full paused index0 obs acc x h)

/-- A poll step at one slot leaves every other slot record alone. -/
theorem pollStep_getElem_ne (paused : Bool) (index0 : List Nat)
    (obs : Nat → FileObs) (acc : List LogfileData × RebuildResult × Bool)
    (k j : Nat) (hkj : k ≠ j) :
    ((pollStep paused index0 obs acc k).1)[j]? = acc.1[j]? := by
  obtain ⟨files, retval, force⟩ := acc
  unfold pollStep
  dsimp only
  repeat' split
  all_goals simp [List.getElem?_set_ne hkj]

/-- Polling a set of other slots leaves slot `j` alone. -/
theorem foldl_pollStep_getElem (paused : Bool) (index0 : List Nat)
    (obs : Nat → FileObs) (j : Nat) :
    ∀ (L : List Nat) (acc : List LogfileData × RebuildResult × Bool),
      (∀ k ∈ L, k ≠ j) →
      ((L.foldl (pollStep paused index0 obs) acc).1)[j]? = acc.1[j]? := by
  intro L
  induction L with
  | nil => intro acc _; rfl
  | cons x xs ih =>
    intro acc h
    rw [List.foldl_cons, ih _ (fun k hk => h k (by simp [hk])),
      pollStep_getElem_ne paused index0 obs acc x j (h x (by simp))]

/-- A slot whose re-observation reports `RR_NEW_ORDER` or `RR_INVALID`
classifies the tick as a full rebuild. -/
theorem pollStep_fires (index0 : List Nat) (obs : Nat → FileObs)
    (acc : List LogfileData × RebuildResult × Bool) (j : Nat)
    (ld : LogfileData) (f : List LogLine)
    (h1 : acc.1[j]? = some ld) (h2 : ld.file = some f)
    (hrr : (obs j).rr = FileRR.newOrder ∨ (obs j).rr = FileRR.invalid) :
    (pollStep false index0 obs acc j).2.1 = RebuildResult.fullRebuild := by
  obtain ⟨files, retval, force⟩ := acc
  simp only at h1
  unfold pollStep
  dsimp only
  rw [h1]
  rcases hrr with hrr | hrr <;> simp [h2, hrr]

/-- If any slot's re-observation reports `RR_NEW_ORDER` or
`RR_INVALID`, the polling phase ends in the full-rebuild
classification. -/
theorem pollPhase_full_of_bad (obs : Nat → FileObs) (s : LSS) (j : Nat)
    (ld : LogfileData) (f : List LogLine)
    (h1 : s.files[j]? = some ld) (h2 : ld.file = some f)
    (hrr : (obs j).rr = FileRR.newOrder ∨ (obs j).rr = FileRR.invalid) :
    (pollPhase false obs s).2.1 = RebuildResult.fullRebuild := by
  have hj : j < s.files.length := lt_length_of_getElem?_some h1
  unfold pollPhase
  obtain ⟨m, hm⟩ : ∃ m, s.files.length = j + 1 + m :=
    ⟨s.files.length - (j + 1), by omega⟩
  rw [hm, List.range_add, List.range_succ, List.foldl_append,
    List.foldl_append]
  apply foldl_pollStep_full
  rw [List.foldl_cons, List.foldl_nil]
  apply pollStep_fires _ obs _ j ld f _ h2 hrr
  rw [foldl_pollStep_getElem _ _ obs j _ _
    (by intro k hk; have := List.mem_range.mp hk; omega)]
  exact h1

/-- A full-rebuild classification is remapped to `APPENDED` just before
`rebuild_index` returns. -/
theorem rebuild_result_of_poll_full (rf : Bool) (extra : LogLine → Bool)
    (im om : Nat) (obs : Nat → FileObs) (s : LSS)
    (h : (pollPhase false obs s).2.1 = RebuildResult.fullRebuild) :
    (rebuildIndex false rf extra im om obs s).2 =
      RebuildResult.appendedLines := by
  unfold rebuildIndex
  dsimp only
  rw [h]
  simp

/-- The index range of a one-element list. -/
theorem range_length_singleton {α : Type} (x : α) :
    List.range [x].length = [0] := by
  show List.range 1 = [0]
  decide

/-- C1 amended: no call of `rebuild_index` returns `FULL_REBUILD`.
When a re-observation reports `NEW_ORDER` or `INVALID` the call
classifies a full rebuild internally but returns `APPENDED`; and a
re-ordered append (`NEW_LINES` whose first new timestamp is below the
current tail) likewise returns `APPENDED`, appending the late line at
the tail of the index instead of rebuilding. -/
theorem c1_no_full_rebuild :
    (∀ (rf : Bool) (extra : LogLine → Bool) (im om : Nat)
        (obs : Nat → FileObs) (s : LSS) (j : Nat) (ld : LogfileData)
        (f : List LogLine), s.files[j]? = some ld → ld.file = some f →
        ((obs j).rr = FileRR.newOrder ∨ (obs j).rr = FileRR.invalid) →
        (rebuildIndex false rf extra im om obs s).2 =
          RebuildResult.appendedLines) ∧
    (∀ (f : List LogLine) (l : LogLine) (m : Nat → Nat) (fil : List Nat)
        (rf : Bool) (extra : LogLine → Bool) (im om : Nat)
        (obs : Nat → FileObs) (hne : f ≠ []),
        f.length ≤ MAX_LINES_PER_FILE →
        obs 0 = ⟨FileRR.newLines, f ++ [l]⟩ →
        l.ts < (f.getLast hne).ts →
        (rebuildIndex false rf extra im om obs
            ⟨[⟨0, f.length, some f, m⟩], List.range f.length, fil, false⟩).2 =
          RebuildResult.appendedLines ∧
        (rebuildIndex false rf extra im om obs
            ⟨[⟨0, f.length, some f, m⟩], List.range f.length, fil,
             false⟩).1.index =
          List.range f.length ++ [f.length]) := by
  constructor
  · intro rf extra im om obs s j ld f h1 h2 hrr
    exact rebuild_result_of_poll_full rf extra im om obs s
      (pollPhase_full_of_bad obs s j ld f h1 h2 hrr)
  · intro f l m fil rf extra im om obs hne hlen hobs hts
    have hn0 : f.length ≠ 0 := by
      intro h0
      exact hne (List.eq_nil_of_length_eq_zero h0)
    have hlast : (List.range f.length).getLast? = some (f.length - 1) := by
      rw [List.getLast?_eq_getElem?, List.length_range,
        List.getElem?_range (by omega)]
    have hnew : (f ++ [l]).getD f.length default = l := by
      rw [List.getD_eq_getElem?_getD, List.getElem?_concat_length]
      rfl
    have hfind : findLine [⟨0, f.length, some (f ++ [l]), m⟩]
        (f.length - 1) = some (f.getLast hne) := by
      unfold findLine findData
      rw [Nat.div_eq_of_lt (by omega), Nat.mod_eq_of_lt (by omega)]
      simp only [List.getElem?_cons_zero, Option.map_some']
      rw [List.getElem?_append_left (show f.length - 1 < f.length by omega),
        ← List.getLast?_eq_getElem?, List.getLast?_eq_getLast f hne]
    have hpoll : pollPhase false obs
        ⟨[⟨0, f.length, some f, m⟩], List.range f.length, fil, false⟩ =
        ([⟨0, f.length, some (f ++ [l]), m⟩],
         RebuildResult.fullRebuild, true) := by
      unfold pollPhase
      dsimp only
      rw [range_length_singleton, List.foldl_cons, List.foldl_nil]
      unfold pollStep
      rw [hobs]
      simp only [List.getElem?_cons_zero, List.set_cons_zero, hlast, hnew,
        hfind, hts, List.length_append, List.length_cons, List.length_nil]
      simp
    have htot : totalRemaining [⟨0, f.length, some (f ++ [l]), m⟩] = 1 := by
      simp [totalRemaining]
    have hhead : headAt [⟨0, f.length, some (f ++ [l]), m⟩] 0 = some l := by
      unfold headAt
      simp [List.getElem?_concat_length]
    have hpick : pickMin [⟨0, f.length, some (f ++ [l]), m⟩] =
        some (0, l.ts) := by
      unfold pickMin
      rw [range_length_singleton]
      unfold pickMinAux
      rw [hhead]
      rfl
    have hmerge : kmergeRun 1 [⟨0, f.length, some (f ++ [l]), m⟩] =
        ([⟨0, f.length + 1, some (f ++ [l]), m⟩], [f.length]) := by
      rw [(by rfl : (1 : Nat) = 0 + 1), kmergeRun, hpick]
      simp only [List.getElem?_cons_zero, List.set_cons_zero,
        List.length_append, List.length_cons, List.length_nil]
      simp
    constructor
    · unfold rebuildIndex
      dsimp only
      rw [hpoll]
      simp
    · unfold rebuildIndex
      dsimp only
      rw [hpoll]
      dsimp only
      rw [if_neg (by simp), htot, hmerge]

/-- C1 witness: an INVALID report and a concrete re-ordered append both
return `APPENDED`. -/
theorem c1_witness :
    (rebuildIndex false false extraTrue 0 0 (fun _ => ⟨FileRR.invalid, fileA⟩)
      oneFileAttach).2 = RebuildResult.appendedLines ∧
    (rebuildIndex false false extraTrue 0 0 obsLate
        ⟨[⟨0, fileA.length, some fileA, mask0⟩], List.range fileA.length,
         [0, 1, 2], false⟩).2 = RebuildResult.appendedLines :=
  ⟨c1_no_full_rebuild.1 false extraTrue 0 0 (fun _ => ⟨FileRR.invalid, fileA⟩)
      oneFileAttach 0 ⟨0, 0, some fileA, mask0⟩ fileA rfl rfl (Or.inr rfl),
   (c1_no_full_rebuild.2 fileA (mkLine 2) mask0 [0, 1, 2] false extraTrue 0 0
      obsLate (by decide) (by decide) rfl (by decide)).1⟩

/-! ### k-way merge lemmas -/

/-- An unindexed head exists only for in-range slots. -/
theorem headAt_lt_length (files : List LogfileData) (k : Nat) (l : LogLine)
    (h : headAt files k = some l) : k < files.length := by
  unfold headAt at h
  cases hf : files[k]? with
  | none => rw [hf] at h; cases h
  | some ld => exact lt_length_of_getElem?_some hf

/-- The scan result of `pickMinAux` is the head of some slot, provided
the accumulator it starts from is. -/
theorem pickMinAux_head (files : List LogfileData) :
    ∀ (L : List Nat) (best : Option (Nat × Nat)),
      (∀ j t, best = some (j, t) → ∃ l, headAt files j = some l ∧ l.ts = t) →
      ∀ j t, pickMinAux files L best = some (j, t) →
      ∃ l, headAt files j = some l ∧ l.ts = t := by
  intro L
  induction L with
  | nil => intro best hb j t h; exact hb j t h
  | cons x xs ih =>
    intro best hb j t h
    rw [pickMinAux] at h
    cases hx : headAt files x with
    | none =>
      simp only [hx] at h
      exact ih best hb j t h
    | some l =>
      cases best with
      | none =>
        simp only [hx] at h
        refine ih _ (fun j' t' he => ?_) j t h
        cases he
        exact ⟨l, hx, rfl⟩
      | some b =>
        simp only [hx] at h
        by_cases hlt : l.ts < b.2
        · rw [if_pos hlt] at h
          refine ih _ (fun j' t' he => ?_) j t h
          cases he
          exact ⟨l, hx, rfl⟩
        · rw [if_neg hlt] at h
          exact ih _ hb j t h

/-- The scan result of `pickMinAux` is no later than its accumulator
and no later than every scanned head. -/
theorem pickMinAux_min (files : List LogfileData) :
    ∀ (L : List Nat) (best : Option (Nat × Nat)) (j t : Nat),
      pickMinAux files L best = some (j, t) →
      (∀ bj bt, best = some (bj, bt) → t ≤ bt) ∧
      (∀ k ∈ L, ∀ l, headAt files k = some l → t ≤ l.ts) := by
  intro L
  induction L with
  | nil =>
    intro best j t h
    rw [pickMinAux] at h
    constructor
    · intro bj bt hb
      rw [hb] at h
      cases h
      exact le_refl _
    · intro k hk
      cases hk
  | cons x xs ih =>
    intro best j t h
    rw [pickMinAux] at h
    cases hx : headAt files x with
    | none =>
      simp only [hx] at h
      obtain ⟨ih1, ih2⟩ := ih best j t h
      refine ⟨ih1, ?_⟩
      intro k hk l hl
      rcases List.mem_cons.mp hk with rfl | hk2
      · rw [hx] at hl; cases hl
      · exact ih2 k hk2 l hl
    | some l =>
      cases best with
      | none =>
        simp only [hx] at h
        obtain ⟨ih1, ih2⟩ := ih (some (x, l.ts)) j t h
        have htl : t ≤ l.ts := ih1 x l.ts rfl
        constructor
        · intro bj bt hb
          cases hb
        · intro k hk l' hl'
          rcases List.mem_cons.mp hk with rfl | hk2
          · rw [hx] at hl'
            injection hl' with he
            subst he
            exact htl
          · exact ih2 k hk2 l' hl'
      | some b =>
        simp only [hx] at h
        by_cases hlt : l.ts < b.2
        · rw [if_pos hlt] at h
          obtain ⟨ih1, ih2⟩ := ih (some (x, l.ts)) j t h
          have htl : t ≤ l.ts := ih1 x l.ts rfl
          refine ⟨?_, ?_⟩
          · intro bj bt hb
            cases hb
            omega
          · intro k hk l' hl'
            rcases List.mem_cons.mp hk with rfl | hk2
            · rw [hx] at hl'
              injection hl' with he
              subst he
              exact htl
            · exact ih2 k hk2 l' hl'
        · rw [if_neg hlt] at h
          obtain ⟨ih1, ih2⟩ := ih (some b) j t h
          have htb : t ≤ b.2 := ih1 b.1 b.2 rfl
          refine ⟨?_, ?_⟩
          · intro bj bt hb
            cases hb
            exact htb
          · intro k hk l' hl'
            rcases List.mem_cons.mp hk with rfl | hk2
            · rw [hx] at hl'
              injection hl' with he
              subst he
              omega
            · exact ih2 k hk2 l' hl'

/-- `pickMinAux` fails only when the accumulator was empty and every
scanned head is empty. -/
theorem pickMinAux_none (files : List LogfileData) :
    ∀ (L : List Nat) (best : Option (Nat × Nat)),
      pickMinAux files L best = none →
      best = none ∧ ∀ k ∈ L, headAt files k = none := by
  intro L
  induction L with
  | nil =>
    intro best h
    rw [pickMinAux] at h
    exact ⟨h, by simp⟩
  | cons x xs ih =>
    intro best h
    rw [pickMinAux] at h
    cases hx : headAt files x with
    | none =>
      simp only [hx] at h
      obtain ⟨h1, h2⟩ := ih best h
      refine ⟨h1, ?_⟩
      intro k hk
      rcases List.mem_cons.mp hk with rfl | hk2
      · exact hx
      · exact h2 k hk2
    | some l =>
      cases best with
      | none =>
        simp only [hx] at h
        obtain ⟨h1, _⟩ := ih _ h
        cases h1
      | some b =>
        simp only [hx] at h
        by_cases hlt : l.ts < b.2
        · rw [if_pos hlt] at h
          obtain ⟨h1, _⟩ := ih _ h
          cases h1
        · rw [if_neg hlt] at h
          obtain ⟨h1, _⟩ := ih _ h
          cases h1

/-- The merge's chosen slot really has that head. -/
theorem pickMin_head (files : List LogfileData) (j t : Nat)
    (h : pickMin files = some (j, t)) :
    ∃ l, headAt files j = some l ∧ l.ts = t :=
  pickMinAux_head files _ none (fun j' t' he => by cases he) j t h

/-- The merge's chosen head is minimal among all heads. -/
theorem pickMin_min (files : List LogfileData) (j t : Nat)
    (h : pickMin files = some (j, t)) :
    ∀ (k : Nat) (l : LogLine), headAt files k = some l → t ≤ l.ts := by
  intro k l hk
  exact (pickMinAux_min files _ none j t h).2 k
    (List.mem_range.mpr (headAt_lt_length files k l hk)) l hk

/-- When the merge finds no candidate, no slot has an unindexed head. -/
theorem pickMin_none (files : List LogfileData)
    (h : pickMin files = none) : ∀ k, headAt files k = none := by
  intro k
  cases hk : headAt files k with
  | none => rfl
  | some l =>
    exact absurd hk (by
      rw [(pickMinAux_none files _ none h).2 k
        (List.mem_range.mpr (headAt_lt_length files k l hk))]
      simp)

/-- Setting a slot leaves the other slots' heads alone. -/
theorem headAt_set_ne (files : List LogfileData) (j k : Nat)
    (x : LogfileData) (h : j ≠ k) :
    headAt (files.set j x) k = headAt files k := by
  unfold headAt
  rw [List.getElem?_set_ne h]

/-- `getElem?` after an in-range `set`. -/
theorem getElem?_set_self_of_lt {α : Type} (l : List α) (j : Nat) (x : α)
    (h : j < l.length) : (l.set j x)[j]? = some x := by
  rw [List.getElem?_set_self]
  simp [h]

/-- The merge loop never changes slot identities or file contents. -/
theorem kmergeRun_contents :
    ∀ (fuel : Nat) (files : List LogfileData) (j : Nat),
      (((kmergeRun fuel files).1)[j]?).map (fun ld => (ld.fileIndex, ld.file))
        = (files[j]?).map (fun ld => (ld.fileIndex, ld.file)) := by
  intro fuel
  induction fuel with
  | zero => intro files j; rfl
  | succ fuel ih =>
    intro files j
    rw [kmergeRun]
    cases hp : pickMin files with
    | none => rfl
    | some jt =>
      dsimp only
      cases hf : files[jt.1]? with
      | none => rfl
      | some ld =>
        dsimp only
        cases hld : ld.file with
        | none => rfl
        | some f =>
          dsimp only
          have hjlt : jt.1 < files.length := lt_length_of_getElem?_some hf
          by_cases hstop : ld.linesIndexed + 1 = f.length
          · rw [if_pos hstop]
            dsimp only
            by_cases hj : jt.1 = j
            · subst hj
              rw [getElem?_set_self_of_lt _ _ _ hjlt, hf]
              simp [hld]
            · rw [List.getElem?_set_ne hj]
          · rw [if_neg hstop]
            dsimp only
            rw [ih]
            by_cases hj : jt.1 = j
            · subst hj
              rw [getElem?_set_self_of_lt _ _ _ hjlt, hf]
              simp [hld]
            · rw [List.getElem?_set_ne hj]

/-- Timestamp decoding only depends on the file contents, which the
merge loop preserves. -/
theorem tsDecode_kmergeRun (fuel : Nat) (files : List LogfileData) :
    tsDecode ((kmergeRun fuel files).1) = tsDecode files := by
  funext cl
  unfold tsDecode findLine findData
  have h := kmergeRun_contents fuel files (cl / MAX_LINES_PER_FILE)
  cases h1 : ((kmergeRun fuel files).1)[cl / MAX_LINES_PER_FILE]? with
  | none =>
    rw [h1] at h
    cases h2 : files[cl / MAX_LINES_PER_FILE]? with
    | none => rfl
    | some ld => rw [h2] at h; cases h
  | some ld1 =>
    rw [h1] at h
    cases h2 : files[cl / MAX_LINES_PER_FILE]? with
    | none => rw [h2] at h; cases h
    | some ld2 =>
      rw [h2] at h
      simp only [Option.map_some'] at h
      injection h with h
      injection h with hfst hsnd
      simp only [Option.map_some']
      rw [hsnd]

/-- Decoding the content line the merge just appended gives back the
timestamp of the consumed head. -/
theorem tsDecode_encode (files : List LogfileData) (j : Nat)
    (ld : LogfileData) (f : List LogLine) (l : LogLine)
    (h1 : files[j]? = some ld) (h2 : ld.file = some f)
    (hM : f.length ≤ MAX_LINES_PER_FILE)
    (hlt : ld.linesIndexed < f.length)
    (hl : f[ld.linesIndexed]? = some l)
    (hslot : ld.fileIndex = j) :
    tsDecode files (ld.fileIndex * MAX_LINES_PER_FILE + ld.linesIndexed) =
      l.ts := by
  unfold tsDecode findLine findData
  have hdiv : (ld.fileIndex * MAX_LINES_PER_FILE + ld.linesIndexed) /
      MAX_LINES_PER_FILE = j := by
    rw [hslot, Nat.mul_comm, Nat.mul_add_div (by decide),
      Nat.div_eq_of_lt (by omega)]
    omega
  have hmod : (ld.fileIndex * MAX_LINES_PER_FILE + ld.linesIndexed) %
      MAX_LINES_PER_FILE = ld.linesIndexed := by
    rw [Nat.mul_comm, Nat.mul_add_mod, Nat.mod_eq_of_lt (by omega)]
  rw [hdiv, hmod, h1]
  simp only [Option.map_some']
  rw [h2]
  simp [hl]

/-- The head of a slot, computed from its record. -/
theorem headAt_eq (files : List LogfileData) (j : Nat) (ld : LogfileData)
    (f : List LogLine) (h1 : files[j]? = some ld) (h2 : ld.file = some f) :
    headAt files j = f[ld.linesIndexed]? := by
  unfold headAt
  simp only [h1, h2]

/-- Setting a slot record that keeps identity and contents does not
change timestamp decoding. -/
theorem tsDecode_set (files : List LogfileData) (j : Nat)
    (ld X : LogfileData) (h : files[j]? = some ld)
    (hfile : X.file = ld.file) :
    tsDecode (files.set j X) = tsDecode files := by
  funext cl
  unfold tsDecode findLine findData
  by_cases hj : j = cl / MAX_LINES_PER_FILE
  · subst hj
    rw [getElem?_set_self_of_lt _ _ _ (lt_length_of_getElem?_some h), h]
    simp only [Option.map_some']
    rw [hfile]
  · rw [List.getElem?_set_ne hj]

/-- The head of a freshly advanced slot. -/
theorem headAt_set_self (files : List LogfileData) (j : Nat)
    (X : LogfileData) (h : j < files.length) :
    headAt (files.set j X) j =
      (match X.file with | none => none | some f => f[X.linesIndexed]?) := by
  unfold headAt
  rw [getElem?_set_self_of_lt _ _ _ h]

/-- The k-way merge emits content lines in non-decreasing timestamp
order, and everything it emits is at or after some unindexed head it
started from. -/
theorem kmergeRun_sorted :
    ∀ (fuel : Nat) (files : List LogfileData),
      slotConsistent files → filesBounded files → filesChainTs files →
      List.Chain' (· ≤ ·) ((kmergeRun fuel files).2.map (tsDecode files)) ∧
      (∀ cl ∈ (kmergeRun fuel files).2,
        ∃ k l, headAt files k = some l ∧ l.ts ≤ tsDecode files cl) := by
  intro fuel
  induction fuel with
  | zero =>
    intro files _ _ _
    constructor <;> simp [kmergeRun]
  | succ fuel ih =>
    intro files hslot hbound hchain
    rw [kmergeRun]
    cases hp : pickMin files with
    | none => constructor <;> simp
    | some jt =>
      obtain ⟨j, t⟩ := jt
      dsimp only
      cases hf : files[j]? with
      | none => constructor <;> simp
      | some ld =>
        dsimp only
        cases hld : ld.file with
        | none => constructor <;> simp
        | some f =>
          dsimp only
          obtain ⟨hl, hhl, hts⟩ := pickMin_head files j t hp
          have hfl : f[ld.linesIndexed]? = some hl := by
            rw [← headAt_eq files j ld f hf hld, hhl]
          have hlip : ld.linesIndexed < f.length :=
            lt_length_of_getElem?_some hfl
          have hMf : f.length ≤ MAX_LINES_PER_FILE :=
            hbound ld (List.getElem?_mem hf) f hld
          have hdec : tsDecode files
              (ld.fileIndex * MAX_LINES_PER_FILE + ld.linesIndexed) =
              hl.ts :=
            tsDecode_encode files j ld f hl hf hld hMf hlip hfl
              (hslot j ld hf)
          by_cases hstop : ld.linesIndexed + 1 = f.length
          · rw [if_pos hstop]
            constructor
            · simp
            · intro cl hcl
              simp only [List.mem_singleton] at hcl
              subst hcl
              exact ⟨j, hl, hhl, by rw [hdec]⟩
          · rw [if_neg hstop]
            dsimp only
            have hjl : j < files.length := lt_length_of_getElem?_some hf
            have hX : (⟨ld.fileIndex, ld.linesIndexed + 1, some f,
                ld.mask⟩ : LogfileData).file = ld.file := by
              rw [hld]
            have hslot1 : slotConsistent (files.set j
                ⟨ld.fileIndex, ld.linesIndexed + 1, some f, ld.mask⟩) := by
              intro k ld' hk'
              by_cases hkj : j = k
              · subst hkj
                rw [getElem?_set_self_of_lt _ _ _ hjl] at hk'
                injection hk' with hk'
                subst hk'
                exact hslot j ld hf
              · rw [List.getElem?_set_ne hkj] at hk'
                exact hslot k ld' hk'
            have hbound1 : filesBounded (files.set j
                ⟨ld.fileIndex, ld.linesIndexed + 1, some f, ld.mask⟩) := by
              intro ld' hmem f' hf'
              rcases List.mem_or_eq_of_mem_set hmem with hmem2 | rfl
              · exact hbound ld' hmem2 f' hf'
              · simp only at hf'
                injection hf' with hf'
                subst hf'
                exact hMf
            have hchain1 : filesChainTs (files.set j
                ⟨ld.fileIndex, ld.linesIndexed + 1, some f, ld.mask⟩) := by
              intro ld' hmem f' hf'
              rcases List.mem_or_eq_of_mem_set hmem with hmem2 | rfl
              · exact hchain ld' hmem2 f' hf'
              · simp only at hf'
                injection hf' with hf'
                subst hf'
                exact hchain ld (List.getElem?_mem hf) f hld
            obtain ⟨ihc, ihb⟩ := ih _ hslot1 hbound1 hchain1
            have hco : tsDecode (files.set j
                ⟨ld.fileIndex, ld.linesIndexed + 1, some f, ld.mask⟩) =
                tsDecode files :=
              tsDecode_set files j ld _ hf hX
            rw [hco] at ihc ihb
            have hheads1 : ∀ (k : Nat) (l' : LogLine),
                headAt (files.set j
                  ⟨ld.fileIndex, ld.linesIndexed + 1, some f, ld.mask⟩) k =
                  some l' → hl.ts ≤ l'.ts := by
              intro k l' hk'
              by_cases hkj : j = k
              · subst hkj
                rw [headAt_set_self _ _ _ hjl] at hk'
                simp only at hk'
                have hcf := hchain ld (List.getElem?_mem hf) f hld
                have hi1 : ld.linesIndexed < (f.map LogLine.ts).length - 1 := by
                  rw [List.length_map]
                  omega
                have := List.chain'_iff_get.mp hcf ld.linesIndexed hi1
                rw [List.get_map, List.get_map] at this
                have he1 : f.get ⟨ld.linesIndexed, by omega⟩ = hl := by
                  have h1 : f[ld.linesIndexed]? = some f[ld.linesIndexed] :=
                    List.getElem?_eq_getElem (by omega)
                  rw [h1] at hfl
                  injection hfl
                have he2 : f.get ⟨ld.linesIndexed + 1, by omega⟩ = l' := by
                  have h2 : f[ld.linesIndexed + 1]? =
                      some f[ld.linesIndexed + 1] :=
                    List.getElem?_eq_getElem (by omega)
                  rw [h2] at hk'
                  injection hk'
                rw [show f.get ⟨ld.linesIndexed, by omega⟩ =
                    f[ld.linesIndexed] from rfl] at he1
                rw [show f.get ⟨ld.linesIndexed + 1, by omega⟩ =
                    f[ld.linesIndexed + 1] from rfl] at he2
                simp only [List.get_eq_getElem] at this
                rw [he1, he2] at this
                exact this
              · rw [headAt_set_ne _ _ _ _ hkj] at hk'
                have := pickMin_min files j t hp k l' hk'
                omega
            constructor
            · rw [List.map_cons]
              rw [List.chain'_cons']
              constructor
              · intro b hb
                have hbm := List.mem_of_mem_head? hb
                obtain ⟨cl', hcl', rfl⟩ := List.mem_map.mp hbm
                obtain ⟨k, l', hk', hle⟩ := ihb cl' hcl'
                rw [hdec]
                exact le_trans (hheads1 k l' hk') hle
              · exact ihc
            · intro cl hcl
              rcases List.mem_cons.mp hcl with rfl | hcl2
              · exact ⟨j, hl, hhl, by rw [hdec]⟩
              · obtain ⟨k, l', hk', hle⟩ := ihb cl hcl2
                exact ⟨j, hl, hhl, le_trans (hheads1 k l' hk') hle⟩

/-- In a non-decreasing list, every member is bounded by the last
entry. -/
theorem pairwise_le_getLast? :
    ∀ (L : List Nat), List.Pairwise (· ≤ ·) L → ∀ a ∈ L,
      ∃ t, L.getLast? = some t ∧ a ≤ t := by
  intro L
  induction L with
  | nil => intro _ a ha; cases ha
  | cons x xs ih =>
    intro hp a ha
    cases xs with
    | nil =>
      simp only [List.mem_singleton] at ha
      subst ha
      exact ⟨a, rfl, le_refl a⟩
    | cons y ys =>
      rcases List.mem_cons.mp ha with rfl | ha2
      · obtain ⟨t, ht, _⟩ := ih (List.pairwise_cons.mp hp).2 y (by simp)
        refine ⟨t, by rw [List.getLast?_cons_cons]; exact ht, ?_⟩
        obtain ⟨hne2, ht2⟩ :=
          List.mem_getLast?_eq_getLast (Option.mem_def.mpr ht)
        have htmem : t ∈ y :: ys := ht2 ▸ List.getLast_mem hne2
        exact (List.pairwise_cons.mp hp).1 t htmem
      · obtain ⟨t, ht, hat⟩ := ih (List.pairwise_cons.mp hp).2 a ha2
        exact ⟨t, by rw [List.getLast?_cons_cons]; exact ht, hat⟩

/-- C2 amended: the global index stays in non-decreasing timestamp
order over any `rebuild_index` call in which no re-ordered data
arrives: given that the re-observed files are internally sorted and
every unindexed head is at or after the current index tail, the
extended index is still sorted.  (The unconditional claim fails: a
re-ordered append is classified for a full rebuild but `never_force`
skips the rebuild and the late line lands at the tail out of order.) -/
theorem c2_sorted_unless_reordered (rf : Bool) (extra : LogLine → Bool)
    (im om : Nat) (obs : Nat → FileObs) (s : LSS)
    (hslot : slotConsistent (pollPhase false obs s).1)
    (hbound : filesBounded (pollPhase false obs s).1)
    (hchain : filesChainTs (pollPhase false obs s).1)
    (hpre : List.Pairwise (· ≤ ·)
      (s.index.map (tsDecode (pollPhase false obs s).1)))
    (hlast : ∀ t ∈ (s.index.map (tsDecode (pollPhase false obs s).1)).getLast?,
      ∀ (k : Nat) (l : LogLine),
        headAt (pollPhase false obs s).1 k = some l → t ≤ l.ts) :
    List.Pairwise (· ≤ ·)
      (indexTsList (rebuildIndex false rf extra im om obs s).1) := by
  unfold rebuildIndex
  dsimp only
  split
  · exact hpre
  · unfold indexTsList
    dsimp only
    rw [List.map_append, tsDecode_kmergeRun]
    obtain ⟨hmc, hmb⟩ := kmergeRun_sorted
      (totalRemaining (pollPhase false obs s).1) (pollPhase false obs s).1
      hslot hbound hchain
    rw [List.pairwise_append]
    refine ⟨hpre, List.chain'_iff_pairwise.mp hmc, ?_⟩
    intro a ha b hb
    obtain ⟨cl', hcl', rfl⟩ := List.mem_map.mp hb
    obtain ⟨k, l', hk', hle⟩ := hmb cl' hcl'
    obtain ⟨tl, htl, hatl⟩ := pairwise_le_getLast? _ hpre a ha
    have h1 := hlast tl (Option.mem_def.mpr htl) k l' hk'
    omega

/-- C2 witness: the two-file merge produces a sorted index. -/
theorem c2_witness :
    List.Pairwise (· ≤ ·)
      (indexTsList (rebuildIndex false false extraTrue 0 0 obsAttachAB
        twoFileAttach).1) := by
  have hp : pollPhase false obsAttachAB twoFileAttach =
      ([⟨0, 0, some fileA, mask0⟩, ⟨1, 0, some fileB, mask0⟩],
       RebuildResult.appendedLines, false) := rfl
  apply c2_sorted_unless_reordered
  · rw [hp]
    intro j ld h
    rcases j with _ | j
    · simp only [List.getElem?_cons_zero] at h
      injection h with h
      subst h
      rfl
    · rcases j with _ | j
      · simp only [List.getElem?_cons_succ, List.getElem?_cons_zero] at h
        injection h with h
        subst h
        rfl
      · simp at h
  · rw [hp]
    intro ld hmem f hf
    simp only [List.mem_cons, List.not_mem_nil, or_false] at hmem
    rcases hmem with rfl | rfl
    · simp only at hf
      injection hf with hf
      subst hf
      decide
    · simp only at hf
      injection hf with hf
      subst hf
      decide
  · rw [hp]
    intro ld hmem f hf
    simp only [List.mem_cons, List.not_mem_nil, or_false] at hmem
    rcases hmem with rfl | rfl
    · simp only at hf
      injection hf with hf
      subst hf
      exact List.chain'_iff_pairwise.mpr (by decide)
    · simp only at hf
      injection hf with hf
      subst hf
      exact List.chain'_iff_pairwise.mpr (by decide)
  · simp [twoFileAttach]
  · intro t ht
    simp [twoFileAttach] at ht

/-! ### Merge termination lemmas -/

/-- When any slot still has a head, the merge finds a candidate. -/
theorem pickMin_isSome_of_head (files : List LogfileData) (k : Nat)
    (l : LogLine) (h : headAt files k = some l) :
    ∃ jt, pickMin files = some jt := by
  cases hp : pickMin files with
  | none => rw [pickMin_none files hp k] at h; cases h
  | some jt => exact ⟨jt, rfl⟩

/-- An unindexed head contributes at least one remaining line. -/
theorem one_le_totalRemaining (files : List LogfileData) (k : Nat)
    (l : LogLine) (h : headAt files k = some l) :
    1 ≤ totalRemaining files := by
  unfold headAt at h
  cases hf : files[k]? with
  | none => rw [hf] at h; cases h
  | some ld =>
    simp only [hf] at h
    cases hld : ld.file with
    | none => simp only [hld] at h; cases h
    | some f =>
      simp only [hld] at h
      have hlt : ld.linesIndexed < f.length := lt_length_of_getElem?_some h
      have hmem : ld ∈ files := List.getElem?_mem hf
      unfold totalRemaining
      have hmem2 := List.mem_map_of_mem
        (fun ld : LogfileData =>
          match ld.file with
          | some f => f.length - ld.linesIndexed
          | none => 0) hmem
      have hx := List.single_le_sum (by intro x _; omega) _ hmem2
      simp only [hld] at hx
      omega

/-- Advancing the slot the merge consumed from reduces the remaining
line count by one. -/
theorem totalRemaining_set :
    ∀ (files : List LogfileData) (j : Nat) (ld : LogfileData)
      (f : List LogLine), files[j]? = some ld → ld.file = some f →
      ld.linesIndexed < f.length →
      totalRemaining (files.set j
        ⟨ld.fileIndex, ld.linesIndexed + 1, some f, ld.mask⟩) + 1 =
        totalRemaining files := by
  intro files
  induction files with
  | nil =>
    intro j ld f h1 _ _
    simp at h1
  | cons x xs ih =>
    intro j ld f h1 h2 h3
    cases j with
    | zero =>
      rw [List.getElem?_cons_zero] at h1
      injection h1 with h1
      subst h1
      rw [List.set_cons_zero]
      unfold totalRemaining
      rw [List.map_cons, List.map_cons, List.sum_cons, List.sum_cons]
      simp only [h2]
      omega
    | succ n =>
      rw [List.getElem?_cons_succ] at h1
      rw [List.set_cons_succ]
      unfold totalRemaining
      rw [List.map_cons, List.map_cons, List.sum_cons, List.sum_cons]
      have hr := ih n ld f h1 h2 h3
      unfold totalRemaining at hr
      omega

/-- With fuel left and a head available, the merge emits something. -/
theorem kmergeRun_ne_nil (fuel : Nat) (hfuel : 1 ≤ fuel)
    (files : List LogfileData) (k : Nat) (l : LogLine)
    (h : headAt files k = some l) : (kmergeRun fuel files).2 ≠ [] := by
  obtain ⟨m, rfl⟩ : ∃ m, fuel = m + 1 := ⟨fuel - 1, by omega⟩
  rw [kmergeRun]
  obtain ⟨jt, hjt⟩ := pickMin_isSome_of_head files k l h
  rw [hjt]
  dsimp only
  obtain ⟨hl, hhl, _⟩ := pickMin_head files jt.1 jt.2 (by rw [hjt])
  unfold headAt at hhl
  cases hf : files[jt.1]? with
  | none => rw [hf] at hhl; cases hhl
  | some ld =>
    simp only [hf] at hhl
    dsimp only
    cases hld : ld.file with
    | none => simp only [hld] at hhl; cases hhl
    | some f =>
      dsimp only
      by_cases hstop : ld.linesIndexed + 1 = f.length
      · rw [if_pos hstop]
        simp
      · rw [if_neg hstop]
        simp

/-- Run to completion: when anything was merged, the loop stopped by
fully consuming some file, and the last emitted content line is that
file's final line. -/
theorem kmergeRun_last_consumed :
    ∀ (fuel : Nat) (files : List LogfileData),
      totalRemaining files ≤ fuel →
      (kmergeRun fuel files).2 ≠ [] →
      ∃ (j : Nat) (ld : LogfileData) (f : List LogLine),
        ((kmergeRun fuel files).1)[j]? = some ld ∧ ld.file = some f ∧
        ld.linesIndexed = f.length ∧
        (kmergeRun fuel files).2.getLast? =
          some (ld.fileIndex * MAX_LINES_PER_FILE + (f.length - 1)) := by
  intro fuel
  induction fuel with
  | zero =>
    intro files _ hne
    exact absurd rfl hne
  | succ fuel ih =>
    intro files hrem hne
    rw [kmergeRun] at hne ⊢
    cases hp : pickMin files with
    | none =>
      rw [hp] at hne
      exact absurd rfl hne
    | some jt =>
      rw [hp] at hne
      dsimp only at hne ⊢
      cases hf : files[jt.1]? with
      | none =>
        rw [hf] at hne
        exact absurd rfl hne
      | some ld =>
        rw [hf] at hne
        dsimp only at hne ⊢
        cases hld : ld.file with
        | none =>
          rw [hld] at hne
          exact absurd rfl hne
        | some f =>
          rw [hld] at hne
          dsimp only at hne ⊢
          obtain ⟨hl, hhl, _⟩ := pickMin_head files jt.1 jt.2 (by rw [hp])
          have hfl : f[ld.linesIndexed]? = some hl := by
            rw [← headAt_eq files jt.1 ld f hf hld, hhl]
          have hlip : ld.linesIndexed < f.length :=
            lt_length_of_getElem?_some hfl
          have hjlt : jt.1 < files.length := lt_length_of_getElem?_some hf
          by_cases hstop : ld.linesIndexed + 1 = f.length
          · rw [if_pos hstop]
            refine ⟨jt.1, ⟨ld.fileIndex, ld.linesIndexed + 1, some f,
              ld.mask⟩, f, getElem?_set_self_of_lt _ _ _ hjlt, rfl, ?_, ?_⟩
            · simp only
              omega
            · simp only [List.getLast?_singleton]
              have : ld.linesIndexed = f.length - 1 := by omega
              rw [this]
          · rw [if_neg hstop]
            dsimp only
            have hrem1 : totalRemaining (files.set jt.1
                ⟨ld.fileIndex, ld.linesIndexed + 1, some f, ld.mask⟩) ≤
                fuel := by
              have := totalRemaining_set files jt.1 ld f hf hld hlip
              omega
            have hh1 : headAt (files.set jt.1
                ⟨ld.fileIndex, ld.linesIndexed + 1, some f, ld.mask⟩)
                jt.1 = some (f.getD (ld.linesIndexed + 1) default) := by
              rw [headAt_set_self _ _ _ hjlt]
              simp only
              rw [List.getD_eq_getElem?_getD,
                List.getElem?_eq_getElem (by omega : ld.linesIndexed + 1 < f.length)]
              rfl
            have hfuel1 : 1 ≤ fuel := by
              have := one_le_totalRemaining _ _ _ hh1
              omega
            have hne1 := kmergeRun_ne_nil fuel hfuel1 _ _ _ hh1
            obtain ⟨j', ld', f', hj', hf', hlen', hlast'⟩ := ih _ hrem1 hne1
            refine ⟨j', ld', f', hj', hf', hlen', ?_⟩
            obtain ⟨r, rs, hrr⟩ := List.exists_cons_of_ne_nil hne1
            rw [hrr] at hlast' ⊢
            rw [List.getLast?_cons_cons]
            exact hlast'

/-- The merge only advances per-slot progress, never past the file
tail, and never touches identity or contents. -/
theorem kmergeRun_files_advance :
    ∀ (fuel : Nat) (files : List LogfileData) (j : Nat) (ld : LogfileData),
      linesWithin files → files[j]? = some ld →
      ∃ ld', ((kmergeRun fuel files).1)[j]? = some ld' ∧
        ld'.fileIndex = ld.fileIndex ∧ ld'.file = ld.file ∧
        ld.linesIndexed ≤ ld'.linesIndexed ∧
        ∀ f, ld.file = some f → ld'.linesIndexed ≤ f.length := by
  intro fuel
  induction fuel with
  | zero =>
    intro files j ld hwf h
    exact ⟨ld, h, rfl, rfl, le_refl _,
      fun f hf => hwf ld (List.getElem?_mem h) f hf⟩
  | succ fuel ih =>
    intro files j ld hwf h
    rw [kmergeRun]
    cases hp : pickMin files with
    | none =>
      exact ⟨ld, h, rfl, rfl, le_refl _,
        fun f hf => hwf ld (List.getElem?_mem h) f hf⟩
    | some jt =>
      dsimp only
      cases hf : files[jt.1]? with
      | none =>
        exact ⟨ld, h, rfl, rfl, le_refl _,
          fun f hf2 => hwf ld (List.getElem?_mem h) f hf2⟩
      | some ldm =>
        dsimp only
        cases hld : ldm.file with
        | none =>
          exact ⟨ld, h, rfl, rfl, le_refl _,
            fun f hf2 => hwf ld (List.getElem?_mem h) f hf2⟩
        | some f =>
          dsimp only
          obtain ⟨hl, hhl, _⟩ := pickMin_head files jt.1 jt.2 (by rw [hp])
          have hfl : f[ldm.linesIndexed]? = some hl := by
            rw [← headAt_eq files jt.1 ldm f hf hld, hhl]
          have hlip : ldm.linesIndexed < f.length :=
            lt_length_of_getElem?_some hfl
          have hjlt : jt.1 < files.length := lt_length_of_getElem?_some hf
          have hwf1 : linesWithin (files.set jt.1
              ⟨ldm.fileIndex, ldm.linesIndexed + 1, some f, ldm.mask⟩) := by
            intro ld' hmem f' hf'
            rcases List.mem_or_eq_of_mem_set hmem with hmem2 | rfl
            · exact hwf ld' hmem2 f' hf'
            · simp only at hf'
              injection hf' with hf'
              subst hf'
              show ldm.linesIndexed + 1 ≤ f.length
              omega
          by_cases hstop : ldm.linesIndexed + 1 = f.length
          · rw [if_pos hstop]
            dsimp only
            by_cases hj : jt.1 = j
            · subst hj
              rw [h] at hf
              injection hf with hf
              subst hf
              refine ⟨_, getElem?_set_self_of_lt _ _ _ hjlt, rfl, ?_, ?_, ?_⟩
              · simp only
                rw [hld]
              · simp only
                omega
              · intro f2 hf2
                rw [hld] at hf2
                injection hf2 with hf2
                subst hf2
                simp only
                omega
            · rw [List.getElem?_set_ne hj]
              exact ⟨ld, h, rfl, rfl, le_refl _,
                fun f2 hf2 => hwf ld (List.getElem?_mem h) f2 hf2⟩
          · rw [if_neg hstop]
            dsimp only
            by_cases hj : jt.1 = j
            · subst hj
              rw [h] at hf
              injection hf with hf
              subst hf
              obtain ⟨ld', hld', hfi', hfile', hle', hbnd'⟩ :=
                ih _ jt.1 _ hwf1 (getElem?_set_self_of_lt _ _ _ hjlt)
              refine ⟨ld', hld', ?_, ?_, ?_, ?_⟩
              · rw [hfi']
              · rw [hfile']
                simp only
                rw [hld]
              · simp only at hle'
                omega
              · intro f2 hf2
                rw [hld] at hf2
                injection hf2 with hf2
                subst hf2
                exact hbnd' f rfl
            · obtain ⟨ld', hld', hfi', hfile', hle', hbnd'⟩ :=
                ih _ j ld hwf1 (by rw [List.getElem?_set_ne hj]; exact h)
              exact ⟨ld', hld', hfi', hfile', hle', hbnd'⟩

/-- Early termination of the merge: of any two slots that both had
unindexed heads when the merge started, at most one is fully consumed
when it stops — the loop breaks at the very step that exhausts the
first file, so every other participating file keeps an unindexed
head. -/
theorem kmergeRun_at_most_one_exhausted :
    ∀ (fuel : Nat) (files : List LogfileData) (j k : Nat), j ≠ k →
      (headAt files j).isSome → (headAt files k).isSome →
      (headAt ((kmergeRun fuel files).1) j).isSome ∨
      (headAt ((kmergeRun fuel files).1) k).isSome := by
  intro fuel
  induction fuel with
  | zero =>
    intro files j k _ hj _
    exact Or.inl hj
  | succ fuel ih =>
    intro files j k hjk hj hk
    rw [kmergeRun]
    cases hp : pickMin files with
    | none => exact Or.inl hj
    | some jt =>
      dsimp only
      cases hf : files[jt.1]? with
      | none => exact Or.inl hj
      | some ld =>
        dsimp only
        cases hld : ld.file with
        | none => exact Or.inl hj
        | some f =>
          dsimp only
          have hjlt : jt.1 < files.length := lt_length_of_getElem?_some hf
          by_cases hstop : ld.linesIndexed + 1 = f.length
          · rw [if_pos hstop]
            dsimp only
            by_cases hjj : jt.1 = j
            · right
              rw [headAt_set_ne _ _ _ _ (by omega)]
              exact hk
            · left
              rw [headAt_set_ne _ _ _ _ hjj]
              exact hj
          · rw [if_neg hstop]
            dsimp only
            obtain ⟨hl, hhl, _⟩ := pickMin_head files jt.1 jt.2 (by rw [hp])
            have hfl : f[ld.linesIndexed]? = some hl := by
              rw [← headAt_eq files jt.1 ld f hf hld, hhl]
            have hlip : ld.linesIndexed < f.length :=
              lt_length_of_getElem?_some hfl
            have hstep : ∀ i, (headAt files i).isSome →
                (headAt (files.set jt.1
                  ⟨ld.fileIndex, ld.linesIndexed + 1, some f, ld.mask⟩)
                  i).isSome := by
              intro i hi
              by_cases hji : jt.1 = i
              · subst hji
                rw [headAt_set_self _ _ _ hjlt]
                simp only
                rw [List.getElem?_eq_getElem
                  (show ld.linesIndexed + 1 < f.length by omega)]
                rfl
              · rw [headAt_set_ne _ _ _ _ hji]
                exact hi
            exact ih _ j k hjk (hstep j hj) (hstep k hk)

/-- Everything the merge emits was consumed: each emitted content line
decodes to a line index strictly below its slot's final
`lines_indexed`, so lines beyond the final counters — the unconsumed
remainder of every file — are never appended in the call. -/
theorem kmergeRun_out_consumed :
    ∀ (fuel : Nat) (files : List LogfileData),
      slotConsistent files → filesBounded files → linesWithin files →
      ∀ cl ∈ (kmergeRun fuel files).2,
        ∃ ld', ((kmergeRun fuel files).1)[cl / MAX_LINES_PER_FILE]? =
            some ld' ∧
          cl % MAX_LINES_PER_FILE < ld'.linesIndexed := by
  intro fuel
  induction fuel with
  | zero =>
    intro files _ _ _ cl hcl
    simp [kmergeRun] at hcl
  | succ fuel ih =>
    intro files hslot hbound hwithin cl hcl
    rw [kmergeRun] at hcl ⊢
    cases hp : pickMin files with
    | none =>
      rw [hp] at hcl
      simp at hcl
    | some jt =>
      rw [hp] at hcl
      dsimp only at hcl ⊢
      cases hf : files[jt.1]? with
      | none =>
        rw [hf] at hcl
        simp at hcl
      | some ld =>
        rw [hf] at hcl
        dsimp only at hcl ⊢
        cases hld : ld.file with
        | none =>
          rw [hld] at hcl
          simp at hcl
        | some f =>
          rw [hld] at hcl
          dsimp only at hcl ⊢
          obtain ⟨hl, hhl, _⟩ := pickMin_head files jt.1 jt.2 (by rw [hp])
          have hfl : f[ld.linesIndexed]? = some hl := by
            rw [← headAt_eq files jt.1 ld f hf hld, hhl]
          have hlip : ld.linesIndexed < f.length :=
            lt_length_of_getElem?_some hfl
          have hjlt : jt.1 < files.length := lt_length_of_getElem?_some hf
          have hMf : f.length ≤ MAX_LINES_PER_FILE :=
            hbound ld (List.getElem?_mem hf) f hld
          have hdiv : (ld.fileIndex * MAX_LINES_PER_FILE + ld.linesIndexed) /
              MAX_LINES_PER_FILE = jt.1 := by
            rw [hslot jt.1 ld hf, Nat.mul_comm, Nat.mul_add_div (by decide),
              Nat.div_eq_of_lt (by omega)]
            omega
          have hmod : (ld.fileIndex * MAX_LINES_PER_FILE + ld.linesIndexed) %
              MAX_LINES_PER_FILE = ld.linesIndexed := by
            rw [Nat.mul_comm, Nat.mul_add_mod, Nat.mod_eq_of_lt (by omega)]
          by_cases hstop : ld.linesIndexed + 1 = f.length
          · rw [if_pos hstop] at hcl ⊢
            dsimp only at hcl ⊢
            simp only [List.mem_singleton] at hcl
            subst hcl
            refine ⟨⟨ld.fileIndex, ld.linesIndexed + 1, some f, ld.mask⟩,
              ?_, ?_⟩
            · rw [hdiv]
              exact getElem?_set_self_of_lt _ _ _ hjlt
            · rw [hmod]
              show ld.linesIndexed < ld.linesIndexed + 1
              omega
          · rw [if_neg hstop] at hcl ⊢
            dsimp only at hcl ⊢
            have hslot1 : slotConsistent (files.set jt.1
                ⟨ld.fileIndex, ld.linesIndexed + 1, some f, ld.mask⟩) := by
              intro k ld2 hk2
              by_cases hkj : jt.1 = k
              · subst hkj
                rw [getElem?_set_self_of_lt _ _ _ hjlt] at hk2
                injection hk2 with hk2
                subst hk2
                exact hslot jt.1 ld hf
              · rw [List.getElem?_set_ne hkj] at hk2
                exact hslot k ld2 hk2
            have hbound1 : filesBounded (files.set jt.1
                ⟨ld.fileIndex, ld.linesIndexed + 1, some f, ld.mask⟩) := by
              intro ld2 hmem f2 hf2
              rcases List.mem_or_eq_of_mem_set hmem with hmem2 | rfl
              · exact hbound ld2 hmem2 f2 hf2
              · simp only at hf2
                injection hf2 with hf2
                subst hf2
                exact hMf
            have hwithin1 : linesWithin (files.set jt.1
                ⟨ld.fileIndex, ld.linesIndexed + 1, some f, ld.mask⟩) := by
              intro ld2 hmem f2 hf2
              rcases List.mem_or_eq_of_mem_set hmem with hmem2 | rfl
              · exact hwithin ld2 hmem2 f2 hf2
              · simp only at hf2
                injection hf2 with hf2
                subst hf2
                show ld.linesIndexed + 1 ≤ f.length
                omega
            rcases List.mem_cons.mp hcl with rfl | hcl2
            · obtain ⟨ld2, hld2, hfi2, hfile2, hle2, _⟩ :=
                kmergeRun_files_advance fuel _ jt.1
                  ⟨ld.fileIndex, ld.linesIndexed + 1, some f, ld.mask⟩
                  hwithin1 (getElem?_set_self_of_lt _ _ _ hjlt)
              refine ⟨ld2, ?_, ?_⟩
              · rw [hdiv]
                exact hld2
              · rw [hmod]
                have hX : (⟨ld.fileIndex, ld.linesIndexed + 1, some f,
                    ld.mask⟩ : LogfileData).linesIndexed =
                    ld.linesIndexed + 1 := rfl
                rw [hX] at hle2
                omega
            · exact ih _ hslot1 hbound1 hwithin1 cl hcl2

/-- The two freshly attached files are slot-consistent. -/
theorem twoFileAttach_slotConsistent : slotConsistent twoFileAttach.files := by
  intro j ld h
  rcases j with _ | j
  · simp only [twoFileAttach, List.getElem?_cons_zero] at h
    injection h with h
    subst h
    rfl
  · rcases j with _ | j
    · simp only [twoFileAttach, List.getElem?_cons_succ,
        List.getElem?_cons_zero] at h
      injection h with h
      subst h
      rfl
    · simp [twoFileAttach] at h

/-- The two freshly attached files fit under the per-file bound. -/
theorem twoFileAttach_bounded : filesBounded twoFileAttach.files := by
  intro ld hmem f hf
  simp only [twoFileAttach, List.mem_cons, List.not_mem_nil, or_false]
    at hmem
  rcases hmem with rfl | rfl
  · simp only at hf
    injection hf with hf
    subst hf
    decide
  · simp only at hf
    injection hf with hf
    subst hf
    decide

/-- The two freshly attached files have in-range progress counters. -/
theorem twoFileAttach_within : linesWithin twoFileAttach.files := by
  intro ld hmem f hf
  simp only [twoFileAttach, List.mem_cons, List.not_mem_nil, or_false]
    at hmem
  rcases hmem with rfl | rfl
  · simp only at hf
    injection hf with hf
    subst hf
    decide
  · simp only at hf
    injection hf with hf
    subst hf
    decide

/-- C4: the incremental k-way merge of `rebuild_index` (run with its
fuel, the number of unindexed lines): (1) the first emitted entry is
the content line of the slot whose head is minimal among all unindexed
heads, and that file's progress counter is advanced; (2) whenever the
merge emits anything, it terminates by fully consuming some
participating file, the last emitted entry being that file's final
line; (3) every slot only advances, never past its file's tail, with
identity and contents untouched; (4) the merge terminates as soon as
any participating file is fully consumed: of any two slots that both
had unindexed heads at the start, at most one is exhausted at the end,
so every other participating file still has unconsumed lines; (5) the
remaining unconsumed lines are not appended in the call: every emitted
content line decodes strictly below its slot's final `lines_indexed`,
so the lines at or beyond the final counters wait for the next
pass. -/
theorem c4_kmerge_semantics :
    (∀ (files : List LogfileData) (j t : Nat),
        pickMin files = some (j, t) →
        ∃ ld, files[j]? = some ld ∧
          (kmergeRun (totalRemaining files) files).2.head? =
            some (ld.fileIndex * MAX_LINES_PER_FILE + ld.linesIndexed) ∧
          ∀ (k : Nat) (l : LogLine), headAt files k = some l → t ≤ l.ts) ∧
    (∀ files : List LogfileData,
        (kmergeRun (totalRemaining files) files).2 ≠ [] →
        ∃ (j : Nat) (ld : LogfileData) (f : List LogLine),
          ((kmergeRun (totalRemaining files) files).1)[j]? = some ld ∧
          ld.file = some f ∧ ld.linesIndexed = f.length ∧
          (kmergeRun (totalRemaining files) files).2.getLast? =
            some (ld.fileIndex * MAX_LINES_PER_FILE + (f.length - 1))) ∧
    (∀ (files : List LogfileData) (j : Nat) (ld : LogfileData),
        linesWithin files → files[j]? = some ld →
        ∃ ld', ((kmergeRun (totalRemaining files) files).1)[j]? = some ld' ∧
          ld'.fileIndex = ld.fileIndex ∧ ld'.file = ld.file ∧
          ld.linesIndexed ≤ ld'.linesIndexed ∧
          ∀ f, ld.file = some f → ld'.linesIndexed ≤ f.length) ∧
    (∀ (files : List LogfileData) (j k : Nat), j ≠ k →
        (headAt files j).isSome → (headAt files k).isSome →
        (headAt ((kmergeRun (totalRemaining files) files).1) j).isSome ∨
        (headAt ((kmergeRun (totalRemaining files) files).1) k).isSome) ∧
    (∀ files : List LogfileData,
        slotConsistent files → filesBounded files → linesWithin files →
        ∀ cl ∈ (kmergeRun (totalRemaining files) files).2,
        ∃ ld', ((kmergeRun (totalRemaining files) files).1)[cl /
            MAX_LINES_PER_FILE]? = some ld' ∧
          cl % MAX_LINES_PER_FILE < ld'.linesIndexed) := by
  refine ⟨?_, ?_, ?_, ?_, ?_⟩
  · intro files j t hp
    obtain ⟨hl, hhl, hts⟩ := pickMin_head files j t hp
    have hh := hhl
    unfold headAt at hhl
    cases hf : files[j]? with
    | none => rw [hf] at hhl; cases hhl
    | some ld =>
      simp only [hf] at hhl
      cases hld : ld.file with
      | none => simp only [hld] at hhl; cases hhl
      | some f =>
        simp only [hld] at hhl
        obtain ⟨m, hm⟩ : ∃ m, totalRemaining files = m + 1 :=
          ⟨totalRemaining files - 1, by
            have := one_le_totalRemaining files j hl hh
            omega⟩
        refine ⟨ld, rfl, ?_, pickMin_min files j t hp⟩
        rw [hm, kmergeRun, hp]
        dsimp only
        rw [hf]
        dsimp only
        rw [hld]
        dsimp only
        by_cases hstop : ld.linesIndexed + 1 = f.length
        · rw [if_pos hstop]
          rfl
        · rw [if_neg hstop]
          rfl
  · intro files hne
    exact kmergeRun_last_consumed (totalRemaining files) files (le_refl _) hne
  · intro files j ld hwf h
    exact kmergeRun_files_advance (totalRemaining files) files j ld hwf h
  · intro files j k hjk hj hk
    exact kmergeRun_at_most_one_exhausted (totalRemaining files) files j k
      hjk hj hk
  · intro files hslot hbound hwithin cl hcl
    exact kmergeRun_out_consumed (totalRemaining files) files hslot hbound
      hwithin cl hcl

/-- C4 witness: the concrete two-file merge starts at A's t = 1 head,
ends by consuming A's final line, leaves B still holding an unindexed
head (B's t = 6 line waits for the next pass), and emits only consumed
lines. -/
theorem c4_witness :
    pickMin twoFileAttach.files = some (0, 1) ∧
    (∃ ld, twoFileAttach.files[0]? = some ld ∧
      (kmergeRun (totalRemaining twoFileAttach.files)
          twoFileAttach.files).2.head? =
        some (ld.fileIndex * MAX_LINES_PER_FILE + ld.linesIndexed) ∧
      ∀ (k : Nat) (l : LogLine),
        headAt twoFileAttach.files k = some l → 1 ≤ l.ts) ∧
    (∃ (j : Nat) (ld : LogfileData) (f : List LogLine),
      ((kmergeRun (totalRemaining twoFileAttach.files)
          twoFileAttach.files).1)[j]? = some ld ∧
      ld.file = some f ∧ ld.linesIndexed = f.length ∧
      (kmergeRun (totalRemaining twoFileAttach.files)
          twoFileAttach.files).2.getLast? =
        some (ld.fileIndex * MAX_LINES_PER_FILE + (f.length - 1))) ∧
    ((headAt ((kmergeRun (totalRemaining twoFileAttach.files)
        twoFileAttach.files).1) 0).isSome ∨
     (headAt ((kmergeRun (totalRemaining twoFileAttach.files)
        twoFileAttach.files).1) 1).isSome) ∧
    (∃ ld', ((kmergeRun (totalRemaining twoFileAttach.files)
        twoFileAttach.files).1)[0 / MAX_LINES_PER_FILE]? = some ld' ∧
      0 % MAX_LINES_PER_FILE < ld'.linesIndexed) := by
  refine ⟨by decide, ?_, ?_, ?_, ?_⟩
  · exact c4_kmerge_semantics.1 twoFileAttach.files 0 1 (by decide)
  · exact c4_kmerge_semantics.2.1 twoFileAttach.files (by decide)
  · exact c4_kmerge_semantics.2.2.2.1 twoFileAttach.files 0 1 (by decide)
      (by decide) (by decide)
  · exact c4_kmerge_semantics.2.2.2.2 twoFileAttach.files
      twoFileAttach_slotConsistent twoFileAttach_bounded twoFileAttach_within
      0 (by decide)

end Lnav
